import Mathlib

/-!
Verification of the array codec in `djorm_pgarray/fields.py`.

Python values reachable by the codec are shallowly embedded as `PgVal`.
Python floats are modelled as exact decimal numbers `m / 10 ^ e` (every
float prints as a finite decimal and `float(str(x)) == x`), so `vfloat m e`
carries the mantissa `m : Int` and the decimal exponent `e : Nat`.
Fallible Python calls (`int(...)`, `float(...)`, `json.loads`, the array
literal parser) return `Option`; Django's `ValidationError` is an
`Except` error value.
-/

namespace DjormPgarray

/-- Left brace character, written via its code point. -/
def braceL : Char := Char.ofNat 123

/-- Right brace character, written via its code point. -/
def braceR : Char := Char.ofNat 125

/-- Whitespace test used for `str.strip()`-style trimming (space, tab,
newline, carriage return; the subset relevant to this codec). -/
def isWs (c : Char) : Bool := c = ' ' ∨ c = '\t' ∨ c = '\n' ∨ c = '\r'

/-- Trim leading and trailing whitespace from a character list
(models Python's `str.strip()`). -/
def trimChars (cs : List Char) : List Char :=
  ((cs.dropWhile isWs).reverse.dropWhile isWs).reverse

/-- Value of a decimal digit character, `Option.none` for non-digits. -/
def digitOfChar (c : Char) : Option Nat :=
  if '0' ≤ c ∧ c ≤ '9' then some (c.toNat - '0'.toNat) else Option.none

/-- Character for a decimal digit value below ten. -/
def charOfDigit (d : Nat) : Char :=
  if d = 0 then '0' else if d = 1 then '1' else if d = 2 then '2'
  else if d = 3 then '3' else if d = 4 then '4' else if d = 5 then '5'
  else if d = 6 then '6' else if d = 7 then '7' else if d = 8 then '8'
  else '9'

/-- Most-significant-first digit list folded back into a natural number. -/
def digsToNat (ds : List Nat) : Nat := ds.foldl (fun a d => a * 10 + d) 0

/-- Fuelled worker for `natToDigs`; fuel `n` is always enough because the
argument at least halves each step. -/
def natToDigsF : Nat → Nat → List Nat
  | 0, _ => []
  | f + 1, n => if n = 0 then [] else natToDigsF f (n / 10) ++ [n % 10]

/-- Most-significant-first decimal digits of a natural number (`[]` for 0). -/
def natToDigs (n : Nat) : List Nat := natToDigsF n n

/-- Decimal rendering of a natural number (`"0"` for 0). -/
def natToChars (n : Nat) : List Char :=
  if n = 0 then ['0'] else (natToDigs n).map charOfDigit

/-- Decimal rendering of an integer, models Python `str(int)`. -/
def intToChars (n : Int) : List Char :=
  if n < 0 then '-' :: natToChars n.natAbs else natToChars n.natAbs

/-- Greedily read a run of decimal digits, returning their values and the
remaining characters. -/
def readDigits : List Char → List Nat × List Char
  | [] => ([], [])
  | c :: cs =>
    match digitOfChar c with
    | some d => let p := readDigits cs; (d :: p.1, p.2)
    | Option.none => ([], c :: cs)

/-- Read a whole character list as an unsigned decimal numeral. -/
def readNatAll (cs : List Char) : Option Nat :=
  let p := readDigits cs
  if p.1 ≠ [] ∧ p.2 = [] then some (digsToNat p.1) else Option.none

/-- Read a whole character list as an optionally signed decimal integer
(models the accepting core of Python's `int(str)` after stripping). -/
def readIntAll (cs : List Char) : Option Int :=
  match cs with
  | [] => Option.none
  | c :: rest =>
    if c = '-' then (readNatAll rest).map (fun n => -(n : Int))
    else if c = '+' then (readNatAll rest).map (fun n => (n : Int))
    else (readNatAll (c :: rest)).map (fun n => (n : Int))

/-- Models Python `int(s)` on a string: strip whitespace, then parse an
optionally signed decimal numeral; `Option.none` models `ValueError`. -/
def pyIntOfStr (s : String) : Option Int := readIntAll (trimChars s.toList)

/-- The embedded Python values the codec manipulates: integers, floats
(as exact decimals `m / 10 ^ e`), strings, booleans, `None`, lists,
tuples, and dictionaries. -/
inductive PgVal where
  | vint : Int → PgVal
  | vfloat : Int → Nat → PgVal
  | vstr : String → PgVal
  | vbool : Bool → PgVal
  | vnone : PgVal
  | vlist : List PgVal → PgVal
  | vtuple : List PgVal → PgVal
  | vdict : List (String × PgVal) → PgVal

/-- Is the value a Python string? (`isinstance(value, six.string_types)`). -/
def PgVal.isStrB : PgVal → Bool
  | .vstr _ => true
  | _ => false

/-- Build a float value from mantissa `m`, fractional length `e` and a
decimal exponent `k` (from scientific-style input), keeping `m / 10 ^ e`
exact. -/
def mkFloatExp (m : Int) (e : Nat) (k : Int) : PgVal :=
  if 0 ≤ k then
    let kn := k.toNat
    if e ≤ kn then .vfloat (m * (10 : Int) ^ (kn - e)) 0
    else .vfloat m (e - kn)
  else .vfloat m (e + (-k).toNat)

/-- Strip an optional leading sign, reporting whether it was a minus. -/
def splitSign (cs : List Char) : Bool × List Char :=
  match cs with
  | [] => (false, [])
  | c :: r =>
    if c = '-' then (true, r)
    else if c = '+' then (false, r)
    else (false, c :: r)

/-- Read an optional fraction part: a dot followed by digits. -/
def readFrac : List Char → List Nat × List Char
  | '.' :: r => readDigits r
  | cs => ([], cs)

/-- Read an optional exponent suffix (after the `e`/`E`). -/
def readFloatExpPart (m : Int) (e : Nat) (r : List Char) : Option PgVal :=
  match r with
  | '-' :: r2 => (readNatAll r2).map (fun k => mkFloatExp m e (-(k : Int)))
  | '+' :: r2 => (readNatAll r2).map (fun k => mkFloatExp m e (k : Int))
  | r2 => (readNatAll r2).map (fun k => mkFloatExp m e (k : Int))

/-- Assemble a float from sign, integer digits, fraction digits and the
remaining characters (empty or an exponent suffix). -/
def finishFloat (sgn : Bool) (I F : List Nat) (rest : List Char) : Option PgVal :=
  if I = [] ∧ F = [] then Option.none
  else
    match rest with
    | [] =>
      some (mkFloatExp
        (if sgn then -(digsToNat (I ++ F) : Int) else (digsToNat (I ++ F) : Int))
        F.length 0)
    | 'e' :: r =>
      readFloatExpPart
        (if sgn then -(digsToNat (I ++ F) : Int) else (digsToNat (I ++ F) : Int))
        F.length r
    | 'E' :: r =>
      readFloatExpPart
        (if sgn then -(digsToNat (I ++ F) : Int) else (digsToNat (I ++ F) : Int))
        F.length r
    | _ => Option.none

/-- Parse the body of a float literal: optional sign, integer digits,
optional fraction, optional exponent; the whole list must be consumed.
Models the accepting core of Python's `float(str)`. -/
def readFloatAll (cs : List Char) : Option PgVal :=
  finishFloat (splitSign cs).1 (readDigits (splitSign cs).2).1
    (readFrac (readDigits (splitSign cs).2).2).1
    (readFrac (readDigits (splitSign cs).2).2).2

/-- Models Python `float(s)` on a string: strip whitespace, then parse a
decimal literal; `Option.none` models `ValueError`. -/
def pyFloatOfStr (s : String) : Option PgVal := readFloatAll (trimChars s.toList)

/-- The digit list of the mantissa `a`, zero-padded on the left to at
least `e + 1` digits. -/
def floatDigits (a : Nat) (e : Nat) : List Nat :=
  List.replicate (e + 1 - (natToDigs a).length) 0 ++ natToDigs a

/-- Decimal rendering of the float `m / 10 ^ e`; models `str(float)` for
the positional-style range (scientific-style display of very large or
small magnitudes is not modelled). -/
def floatToChars (m : Int) (e : Nat) : List Char :=
  (if m < 0 then ['-'] else []) ++
    (if e = 0 then (floatDigits m.natAbs e).map charOfDigit ++ ['.', '0']
     else
       ((floatDigits m.natAbs e).take ((floatDigits m.natAbs e).length - e)).map
           charOfDigit ++
         '.' :: ((floatDigits m.natAbs e).drop ((floatDigits m.natAbs e).length - e)).map
           charOfDigit)

/-- Models `django.utils.encoding.force_text` on the scalar values the
codec reaches (lists and tuples are handled by the callers before this
function is applied; containers are rendered only as a placeholder). -/
def force_text : PgVal → String
  | .vstr s => s
  | .vint n => String.mk (intToChars n)
  | .vfloat m e => String.mk (floatToChars m e)
  | .vbool b => if b then "True" else "False"
  | .vnone => "None"
  | .vlist _ => ""
  | .vtuple _ => ""
  | .vdict _ => ""

/-- The closed set of coercion callables stored in the `TYPES` dict:
`int`, `str`, `float`, and the identity fallback `lambda x: x`. -/
inductive TypeCast where
  | toInt : TypeCast
  | toStr : TypeCast
  | toFloat : TypeCast
  | ident : TypeCast
deriving DecidableEq

/-- The `TYPES` dictionary from `fields.py`, in source order. -/
def TYPES : List (String × TypeCast) :=
  [("int", .toInt), ("smallint", .toInt), ("bigint", .toInt),
   ("text", .toStr), ("double precision", .toFloat), ("varchar", .toStr)]

/-- `self._array_type.split('(')[0]` from `ArrayField.__init__`: the part
of the declared type name before the first opening parenthesis. -/
def typeKey (dbtype : String) : String :=
  String.mk (dbtype.toList.takeWhile (fun c => c ≠ '('))

/-- The `elif type_key in TYPES ... else lambda x: x` selection from
`ArrayField.__init__`: look the key up in `TYPES`, defaulting to the
identity coercion. -/
def selectTypeCast (dbtype : String) : TypeCast :=
  match TYPES.lookup (typeKey dbtype) with
  | some tc => tc
  | Option.none => .ident

/-- `ArrayField.__init__`'s full `_type_cast` choice: an explicit
`type_cast` keyword argument wins, otherwise `selectTypeCast`. -/
def ArrayField.initCast (kwargsTypeCast : Option TypeCast) (dbtype : String) : TypeCast :=
  match kwargsTypeCast with
  | some tc => tc
  | Option.none => selectTypeCast dbtype

/-- Python's `int(...)` applied to a scalar value: identity on ints,
truncation toward zero on floats, decimal parse on strings, `True`/`False`
as 1/0; `Option.none` models `TypeError`/`ValueError`. -/
def pyIntCast : PgVal → Option PgVal
  | .vint n => some (.vint n)
  | .vbool b => some (.vint (if b then 1 else 0))
  | .vfloat m e => some (.vint (m.tdiv ((10 : Int) ^ e)))
  | .vstr s => (pyIntOfStr s).map .vint
  | _ => Option.none

/-- Python's `float(...)` applied to a scalar value;
`Option.none` models `TypeError`/`ValueError`. -/
def pyFloatCast : PgVal → Option PgVal
  | .vint n => some (.vfloat n 0)
  | .vbool b => some (.vfloat (if b then 1 else 0) 0)
  | .vfloat m e => some (.vfloat m e)
  | .vstr s => pyFloatOfStr s
  | _ => Option.none

/-- The non-container branch of `_cast_to_type`:
`force_text(data) if type_cast == str else type_cast(data)`. -/
def castScalar (tc : TypeCast) (v : PgVal) : Option PgVal :=
  match tc with
  | .toStr => some (.vstr (force_text v))
  | .toInt => pyIntCast v
  | .toFloat => pyFloatCast v
  | .ident => some v

mutual

/-- `_cast_to_unicode(data, force)` from `fields.py`: recurse into lists
and tuples (building a list), apply `force_text` to strings (or to any
value when `force`), pass everything else through. -/
def _cast_to_unicode : Bool → PgVal → PgVal
  | force, .vlist xs => .vlist (castUniList force xs)
  | force, .vtuple xs => .vlist (castUniList force xs)
  | _, .vstr s => .vstr (force_text (.vstr s))
  | force, v => if force then .vstr (force_text v) else v

/-- Elementwise `_cast_to_unicode` over the members of a list or tuple. -/
def castUniList : Bool → List PgVal → List PgVal
  | _, [] => []
  | force, x :: xs => _cast_to_unicode force x :: castUniList force xs

end

mutual

/-- `_cast_to_type(data, type_cast)` from `fields.py`: recurse into lists
and tuples (building a list), otherwise apply the selected coercion
callable; `Option.none` models the callable raising. -/
def _cast_to_type : TypeCast → PgVal → Option PgVal
  | tc, .vlist xs => (castTypeList tc xs).map .vlist
  | tc, .vtuple xs => (castTypeList tc xs).map .vlist
  | tc, v => castScalar tc v

/-- Elementwise `_cast_to_type` over the members of a list or tuple,
failing if any element fails. -/
def castTypeList : TypeCast → List PgVal → Option (List PgVal)
  | _, [] => some []
  | tc, x :: xs =>
    match _cast_to_type tc x with
    | some y =>
      match castTypeList tc xs with
      | some ys => some (y :: ys)
      | Option.none => Option.none
    | Option.none => Option.none

end

/-- Skip JSON whitespace. -/
def skipWs (cs : List Char) : List Char := cs.dropWhile isWs

/-- Translate a JSON escape character; `\u` escapes are not modelled. -/
def jsonEsc (c : Char) : Option Char :=
  if c = '"' then some '"'
  else if c = '\\' then some '\\'
  else if c = '/' then some '/'
  else if c = 'n' then some '\n'
  else if c = 't' then some '\t'
  else if c = 'r' then some '\r'
  else if c = 'b' then some (Char.ofNat 8)
  else if c = 'f' then some (Char.ofNat 12)
  else Option.none

/-- Parse the remainder of a JSON string literal after the opening quote,
returning its contents and the characters after the closing quote. -/
def jsonStringLit : List Char → Option (List Char × List Char)
  | [] => Option.none
  | '"' :: r => some ([], r)
  | '\\' :: c :: r =>
    match jsonEsc c with
    | some e =>
      match jsonStringLit r with
      | some p => some (e :: p.1, p.2)
      | Option.none => Option.none
    | Option.none => Option.none
  | '\\' :: [] => Option.none
  | c :: r =>
    match jsonStringLit r with
    | some p => some (c :: p.1, p.2)
    | Option.none => Option.none

/-- Parse the exponent suffix of a JSON number (after the `e`/`E`). -/
def jsonNumExp (m : Int) (e : Nat) (r : List Char) : Option (PgVal × List Char) :=
  let ep : Bool × List Char :=
    match r with
    | '-' :: r2 => (true, r2)
    | '+' :: r2 => (false, r2)
    | _ => (false, r)
  let dp := readDigits ep.2
  if dp.1 = [] then Option.none
  else
    let k : Int := if ep.1 then -(digsToNat dp.1 : Int) else (digsToNat dp.1 : Int)
    some (mkFloatExp m e k, dp.2)

/-- Parse a JSON number (integer or float, with optional fraction and
exponent), returning the value and remaining characters. -/
def jsonNumber (cs : List Char) : Option (PgVal × List Char) :=
  let sp : Bool × List Char :=
    match cs with
    | '-' :: r => (true, r)
    | _ => (false, cs)
  match sp.2 with
  | c :: _ =>
    if (digitOfChar c).isSome then
      let ip : List Nat × List Char :=
        if c = '0' then ([0], sp.2.tail) else readDigits sp.2
      let fp : List Nat × List Char :=
        match ip.2 with
        | '.' :: r => readDigits r
        | _ => ([], ip.2)
      let hasDot : Bool := match ip.2 with | '.' :: _ => true | _ => false
      if hasDot ∧ fp.1 = [] then Option.none
      else
        let m0 : Int := (digsToNat (ip.1 ++ fp.1) : Int)
        let m : Int := if sp.1 then -m0 else m0
        let rest := if hasDot then fp.2 else ip.2
        match rest with
        | 'e' :: r => jsonNumExp m fp.1.length r
        | 'E' :: r => jsonNumExp m fp.1.length r
        | r =>
          if hasDot then some (mkFloatExp m fp.1.length 0, r)
          else some (.vint m, r)
    else Option.none
  | [] => Option.none

/-- Parse the elements of a non-empty JSON array after the opening
bracket, given a parser `pv` for one value; fuel bounds the element
count. -/
def jsonSeq (pv : List Char → Option (PgVal × List Char)) :
    Nat → List Char → Option (List PgVal × List Char)
  | 0, _ => Option.none
  | g + 1, cs =>
    match pv cs with
    | some (v, r) =>
      match skipWs r with
      | ',' :: r2 =>
        match jsonSeq pv g r2 with
        | some p => some (v :: p.1, p.2)
        | Option.none => Option.none
      | ']' :: r2 => some ([v], r2)
      | _ => Option.none
    | Option.none => Option.none

/-- Parse the members of a non-empty JSON object after the opening brace,
given a parser `pv` for one value; fuel bounds the member count. -/
def jsonObjSeq (pv : List Char → Option (PgVal × List Char)) :
    Nat → List Char → Option (List (String × PgVal) × List Char)
  | 0, _ => Option.none
  | g + 1, cs =>
    match skipWs cs with
    | '"' :: r =>
      match jsonStringLit r with
      | some (k, r2) =>
        match skipWs r2 with
        | ':' :: r3 =>
          match pv r3 with
          | some (v, r4) =>
            match skipWs r4 with
            | ',' :: r5 =>
              match jsonObjSeq pv g r5 with
              | some p => some ((String.mk k, v) :: p.1, p.2)
              | Option.none => Option.none
            | c :: r5 =>
              if c = braceR then some ([(String.mk k, v)], r5) else Option.none
            | [] => Option.none
          | Option.none => Option.none
        | _ => Option.none
      | Option.none => Option.none
    | _ => Option.none

/-- Parse one JSON value, returning it and the remaining characters.
Models the accepting core of Python's `json.loads` (without `\u` escapes
and the `NaN`/`Infinity` extensions). -/
def jsonVal : Nat → List Char → Option (PgVal × List Char)
  | 0, _ => Option.none
  | f + 1, cs0 =>
    match skipWs cs0 with
    | 't' :: 'r' :: 'u' :: 'e' :: r => some (.vbool true, r)
    | 'f' :: 'a' :: 'l' :: 's' :: 'e' :: r => some (.vbool false, r)
    | 'n' :: 'u' :: 'l' :: 'l' :: r => some (.vnone, r)
    | '"' :: r =>
      match jsonStringLit r with
      | some p => some (.vstr (String.mk p.1), p.2)
      | Option.none => Option.none
    | '[' :: r =>
      (match skipWs r with
       | ']' :: r2 => some (.vlist [], r2)
       | r2 =>
         match jsonSeq (jsonVal f) (r2.length + 1) r2 with
         | some p => some (.vlist p.1, p.2)
         | Option.none => Option.none)
    | c :: r =>
      if c = braceL then
        match skipWs r with
        | c2 :: r2 =>
          if c2 = braceR then some (.vdict [], r2)
          else
            (match jsonObjSeq (jsonVal f) ((c2 :: r2).length + 1) (c2 :: r2) with
             | some p => some (.vdict p.1, p.2)
             | Option.none => Option.none)
        | [] => Option.none
      else jsonNumber (c :: r)
    | [] => Option.none

/-- Models Python's `json.loads` on a whole string: parse one value and
require only whitespace to remain; `Option.none` models `ValueError`. -/
def json_loads (s : String) : Option PgVal :=
  match jsonVal (s.toList.length + 1) s.toList with
  | some (v, r) => if (skipWs r).isEmpty then some v else Option.none
  | Option.none => Option.none

/-- `_unserialize(value)` from `fields.py`: non-strings are passed to
`_cast_to_unicode`; strings are JSON-decoded when possible
(`ValueError` falls back to the string itself), then `_cast_to_unicode`
is applied. -/
def _unserialize : PgVal → PgVal
  | .vstr s =>
    match json_loads s with
    | some j => _cast_to_unicode false j
    | Option.none => _cast_to_unicode false (.vstr s)
  | v => _cast_to_unicode false v

/-- `ArrayField.to_python(value)`: delegates to `_unserialize`. -/
def ArrayField.to_python (v : PgVal) : PgVal := _unserialize v

/-- `ArrayField.get_prep_value(value)`: the identity. -/
def ArrayField.get_prep_value (v : PgVal) : PgVal := v

/-- Python truthiness (`not value`) for the embedded values. -/
def pyFalsy : PgVal → Bool
  | .vnone => true
  | .vstr s => s.isEmpty
  | .vint n => n = 0
  | .vfloat m _ => m = 0
  | .vbool b => !b
  | .vlist xs => xs.isEmpty
  | .vtuple xs => xs.isEmpty
  | .vdict kvs => kvs.isEmpty

/-- `ArrayField.get_db_prep_value(value, connection, prepared)`: apply
`get_prep_value` when not prepared, return falsy or string values
verbatim, otherwise coerce with `_cast_to_type`. -/
def ArrayField.get_db_prep_value (tc : TypeCast) (prepared : Bool) (v : PgVal) :
    Option PgVal :=
  let v := if prepared then v else ArrayField.get_prep_value v
  if pyFalsy v || v.isStrB then some v else _cast_to_type tc v

/-- Cons a character onto the first (current) token of a token list. -/
def consTok (c : Char) : List (List Char) → List (List Char)
  | [] => [[c]]
  | t :: ts => (c :: t) :: ts

/-- Split a character list into top-level comma-separated tokens while
tracking brace nesting depth; `Option.none` on unbalanced braces.
Part of the model of `parse_array` (see there). -/
def splitTop : List Char → Nat → Option (List (List Char))
  | [], d => if d = 0 then some [[]] else Option.none
  | c :: cs, d =>
    if c = ',' ∧ d = 0 then
      match splitTop cs 0 with
      | some ts => some ([] :: ts)
      | Option.none => Option.none
    else if c = braceL then
      match splitTop cs (d + 1) with
      | some ts => some (consTok c ts)
      | Option.none => Option.none
    else if c = braceR then
      if d = 0 then Option.none
      else
        match splitTop cs (d - 1) with
        | some ts => some (consTok c ts)
        | Option.none => Option.none
    else
      match splitTop cs d with
      | some ts => some (consTok c ts)
      | Option.none => Option.none

/-- Handle one token: trim it, recursively parse it through `rec` when it
looks like a nested array (wrapped in braces), otherwise keep it as text.
Part of the model of `parse_array` (see there). -/
def parseTokWith (rec : List Char → Option (List PgVal)) (t0 : List Char) :
    Option PgVal :=
  if (trimChars t0).head? = some braceL ∧ (trimChars t0).getLast? = some braceR ∧
      2 ≤ (trimChars t0).length then
    match rec ((trimChars t0).drop 1).dropLast with
    | some xs => some (.vlist xs)
    | Option.none => Option.none
  else some (.vstr (String.mk (trimChars t0)))

/-- Fuelled worker for `parse_array`: trim the input, return `[]` when
blank, otherwise split into top-level tokens and handle each token. -/
def parseArrF : Nat → List Char → Option (List PgVal)
  | 0, _ => Option.none
  | f + 1, cs0 =>
    if (trimChars cs0).isEmpty then some []
    else
      match splitTop (trimChars cs0) 0 with
      | some toks => toks.mapM (parseTokWith (parseArrF f))
      | Option.none => Option.none

/-- Modelled from the spec: `parse_array` from `djorm_pgarray/utils.py`,
which is imported by `fields.py` but missing from the sources. Per the
spec's Parse operation: an empty or blank string yields an empty
sequence; otherwise the string is split on commas at top nesting level,
each token is trimmed of surrounding whitespace, a token that itself
looks like a nested array (brace-wrapped, per the spec's `{1,2},{3,4}`
example) is parsed recursively, and scalar tokens are left as text;
unbalanced braces fail with `ParseError`, modelled as `Option.none`. -/
def parse_array (s : String) : Option (List PgVal) :=
  parseArrF (s.toList.length + 1) s.toList

mutual

/-- Render one element of an array value as text. Part of the model of
`edit_string_for_array` (see there). -/
def renderElem : PgVal → List Char
  | .vint n => intToChars n
  | .vfloat m e => floatToChars m e
  | .vstr s => s.toList
  | .vbool b => if b then ['T','r','u','e'] else ['F','a','l','s','e']
  | .vnone => []
  | .vlist xs => braceL :: renderList xs ++ [braceR]
  | .vtuple xs => braceL :: renderList xs ++ [braceR]
  | .vdict _ => []

/-- Render the elements of an array value, comma-separated. Part of the
model of `edit_string_for_array` (see there). -/
def renderList : List PgVal → List Char
  | [] => []
  | [x] => renderElem x
  | x :: y :: xs => renderElem x ++ ',' :: renderList (y :: xs)

end

/-- Modelled from the spec: `edit_string_for_array` from
`djorm_pgarray/utils.py`, which is imported by `fields.py` but missing
from the sources. Per the spec's Serialize operation: render each
element as text, recursing into nested sequences and wrapping them in
the nesting delimiter (braces, per the spec's examples), join with a
comma; `None` elements render as an empty token. -/
def edit_string_for_array (xs : List PgVal) : String := String.mk (renderList xs)

/-- Errors surfaced by the form fields: Django's `ValidationError`
carrying its message, and Python's `TypeError` (raised by `set()` or
`sort()` on unsuitable elements). -/
inductive PyErr where
  | validation : String → PyErr
  | typeErr : PyErr
deriving DecidableEq

/-- `ArrayFormField.prepare_value(value)` with no `item_field`: `None`
and strings are returned as they are, sequences are serialized through
`edit_string_for_array`; other values (which the real code would hand to
`edit_string_for_array` to fail on) are modelled as `Option.none`. -/
def ArrayFormField.prepare_value : PgVal → Option PgVal
  | .vnone => some .vnone
  | .vstr s => some (.vstr s)
  | .vlist xs => some (.vstr (edit_string_for_array xs))
  | .vtuple xs => some (.vstr (edit_string_for_array xs))
  | _ => Option.none

/-- `ArrayFormField.to_python(value)`: strings are parsed with
`parse_array`, a `ValueError` becomes a `ValidationError` with the fixed
message; non-strings are returned unchanged. -/
def ArrayFormField.to_python : PgVal → Except PyErr PgVal
  | .vstr s =>
    match parse_array s with
    | some xs => .ok (.vlist xs)
    | Option.none =>
      .error (.validation "Please provide a comma-separated list of values.")
  | v => .ok v

/-- Classify a parsed element list as all-strings, if it is. -/
def allStrings : List PgVal → Option (List String)
  | [] => some []
  | .vstr s :: xs =>
    match allStrings xs with
    | some ss => some (s :: ss)
    | Option.none => Option.none
  | _ => Option.none

/-- Classify a parsed element list as all-ints, if it is. -/
def allInts : List PgVal → Option (List Int)
  | [] => some []
  | .vint n :: xs =>
    match allInts xs with
    | some ns => some (n :: ns)
    | Option.none => Option.none
  | _ => Option.none

/-- Lexicographic comparison of character lists by code point, the order
Python uses to compare strings. -/
def lexLe : List Char → List Char → Bool
  | [], _ => true
  | _ :: _, [] => false
  | a :: as, b :: bs =>
    a.toNat < b.toNat || (a.toNat = b.toNat && lexLe as bs)

/-- `lexLe` on strings. -/
def strLeB (a b : String) : Bool := lexLe a.toList b.toList

instance : IsTotal String (fun a b => strLeB a b = true) :=
  ⟨fun a b => by
    unfold strLeB
    induction a.toList generalizing b with
    | nil => left; rfl
    | cons x xs ih =>
      generalize b.toList = bl
      cases bl with
      | nil => right; rfl
      | cons y ys =>
        rcases Nat.lt_trichotomy x.toNat y.toNat with h | h | h
        · left; simp [lexLe, h]
        · rcases ih ⟨ys⟩ with h2 | h2 <;> [left; right] <;>
            simp only [String.toList] at h2 <;> simp [lexLe, h, h2]
        · right; simp [lexLe, h]⟩

instance : IsTrans String (fun a b => strLeB a b = true) :=
  ⟨fun a b c => by
    unfold strLeB
    induction a.toList generalizing b c with
    | nil => intro _ _; rfl
    | cons x xs ih =>
      generalize b.toList = bl, c.toList = cl
      cases bl with
      | nil => intro h; exact absurd h (by simp [lexLe])
      | cons y ys =>
        cases cl with
        | nil => intro _ h; exact absurd h (by simp [lexLe])
        | cons z zs =>
          simp only [lexLe, Bool.or_eq_true, Bool.and_eq_true, decide_eq_true_eq]
          rintro (h1 | ⟨h1, h1'⟩) (h2 | ⟨h2, h2'⟩)
          · exact Or.inl (h1.trans h2)
          · exact Or.inl (h2 ▸ h1)
          · exact Or.inl (h1 ▸ h2)
          · refine Or.inr ⟨h1.trans h2, ?_⟩
            have := ih ⟨ys⟩ ⟨zs⟩
            simp only [String.toList] at this
            exact this h1' h2'⟩

/-- Model of `sorted(set(ss))` on strings: the distinct elements in
ascending lexicographic order (the `set` iteration order is arbitrary in
Python, but sorting makes the result canonical). -/
def dedupSortStr (ss : List String) : List String :=
  List.insertionSort (fun a b => strLeB a b = true) ss.dedup

/-- Model of `sorted(set(ns))` on integers. -/
def dedupSortInt (ns : List Int) : List Int :=
  List.insertionSort (fun a b => a ≤ b) ns.dedup

/-- `SetFormField.to_python(value)`: `None` passes through; otherwise the
parent parse runs, and `list(set(...)).sort()` deduplicates and sorts the
result. Homogeneous string or int element lists are ordered; anything
else (unhashable or unorderable elements, or a non-list value reaching
`set()`) is modelled as a `TypeError`. -/
def SetFormField.to_python (v : PgVal) : Except PyErr PgVal :=
  match v with
  | .vnone => .ok .vnone
  | _ =>
    match ArrayFormField.to_python v with
    | .error e => .error e
    | .ok w =>
      match w with
      | .vlist xs =>
        match allStrings xs with
        | some ss => .ok (.vlist ((dedupSortStr ss).map .vstr))
        | Option.none =>
          match allInts xs with
          | some ns => .ok (.vlist ((dedupSortInt ns).map .vint))
          | Option.none => .error .typeErr
      | .vtuple xs =>
        match allStrings xs with
        | some ss => .ok (.vlist ((dedupSortStr ss).map .vstr))
        | Option.none =>
          match allInts xs with
          | some ns => .ok (.vlist ((dedupSortInt ns).map .vint))
          | Option.none => .error .typeErr
      | _ => .error .typeErr

/-- A text leaf that survives the serialize/parse round trip verbatim:
nonempty, without commas or braces, and without surrounding whitespace
(serialization does not quote, and parsing splits on commas and trims). -/
def safeTextB (cs : List Char) : Bool :=
  !cs.isEmpty &&
    cs.all (fun c => !(c = ',' ∨ c = braceL ∨ c = braceR)) &&
    !isWs (cs.headD ' ') && !isWs (cs.getLastD ' ')

/-- Sequences whose leaves are supported scalars, with text leaves
restricted to round-trip-safe ones. -/
inductive SafeElem : PgVal → Prop where
  | int : ∀ n : Int, SafeElem (.vint n)
  | float : ∀ (m : Int) (e : Nat), SafeElem (.vfloat m e)
  | text : ∀ s : String, safeTextB s.toList = true → SafeElem (.vstr s)
  | list : ∀ xs : List PgVal, (∀ v ∈ xs, SafeElem v) → SafeElem (.vlist xs)

mutual

/-- Does the parsed value `w` equal the original value `v` element-wise
after coercion? Text tokens match integer and float originals through
the respective scalar parses, text originals verbatim; nested lists
match pointwise. -/
def coerceMatch : PgVal → PgVal → Bool
  | .vstr s, .vint n => pyIntOfStr s = some n
  | .vstr s, .vfloat m e =>
    match pyFloatOfStr s with
    | some (.vfloat m' e') => m' * (10 : Int) ^ e = m * (10 : Int) ^ e'
    | _ => false
  | .vstr s, .vstr t => s = t
  | .vlist ws, .vlist vs => coerceMatchList ws vs
  | _, _ => false

/-- Pointwise `coerceMatch` over two lists of equal length. -/
def coerceMatchList : List PgVal → List PgVal → Bool
  | [], [] => true
  | w :: ws, v :: vs => coerceMatch w v && coerceMatchList ws vs
  | _, _ => false

end

mutual

/-- Values containing no tuples at list positions (the values
`_cast_to_unicode` returns unchanged when `force` is off). -/
def tupleFree : PgVal → Bool
  | .vtuple _ => false
  | .vlist xs => tupleFreeList xs
  | _ => true

/-- `tupleFree` over the members of a list. -/
def tupleFreeList : List PgVal → Bool
  | [] => true
  | x :: xs => tupleFree x && tupleFreeList xs

end

mutual

/-- The element list `parse_array` recovers from a serialized safe value:
scalar leaves become their textual rendering, nested lists stay lists. -/
def stringifyElem : PgVal → PgVal
  | .vint n => .vstr (String.mk (intToChars n))
  | .vfloat m e => .vstr (String.mk (floatToChars m e))
  | .vstr s => .vstr s
  | .vlist xs => .vlist (stringifyList xs)
  | v => v

/-- `stringifyElem` over the members of a list. -/
def stringifyList : List PgVal → List PgVal
  | [] => []
  | x :: xs => stringifyElem x :: stringifyList xs

end

mutual

/-- Nesting depth of a value: how many fuel units `parse_array` consumes
below a token holding this value. -/
def depthElem : PgVal → Nat
  | .vlist xs => 1 + depthList xs
  | _ => 0

/-- Maximum `depthElem` over a list. -/
def depthList : List PgVal → Nat
  | [] => 0
  | x :: xs => max (depthElem x) (depthList xs)

end

/-- Process characters starting at nesting depth `d`, requiring every
character to accumulate into the current token (no top-level comma, no
unmatched closing brace); returns the final depth. -/
def accAll : List Char → Nat → Option Nat
  | [], d => some d
  | c :: cs, d =>
    if c = ',' ∧ d = 0 then Option.none
    else if c = braceL then accAll cs (d + 1)
    else if c = braceR then
      if d = 0 then Option.none else accAll cs (d - 1)
    else accAll cs d

/-- Prepend characters onto the first token of a token list (an empty
token list gets a single token). -/
def prependTok (t : List Char) : List (List Char) → List (List Char)
  | [] => [t]
  | u :: us => (t ++ u) :: us

/-- Join tokens with commas (the shape `renderList` produces). -/
def joinC : List (List Char) → List Char
  | [] => []
  | [t] => t
  | t :: u :: ts => t ++ ',' :: joinC (u :: ts)

/-- Characters that may appear in a rendered numeric leaf: decimal
digits, the minus sign, and the decimal point. -/
def numChar (c : Char) : Bool :=
  (48 ≤ c.toNat ∧ c.toNat ≤ 57) ∨ c = '-' ∨ c = '.'

/-!  ## Basic character lemmas  -/

theorem char_toNat_inj {c d : Char} (h : c.toNat = d.toNat) : c = d :=
  (StrictMono.injective (fun _ _ hh => hh) : Function.Injective Char.toNat) h

theorem numChar_cases {c : Char} (h : numChar c = true) :
    (48 ≤ c.toNat ∧ c.toNat ≤ 57) ∨ c = '-' ∨ c = '.' := by
  simpa [numChar] using h

theorem charOfDigit_digit (d : Nat) (hd : d < 10) :
    digitOfChar (charOfDigit d) = some d := by
  interval_cases d <;> decide

theorem charOfDigit_numChar (d : Nat) : numChar (charOfDigit d) = true := by
  unfold charOfDigit
  repeat' split
  all_goals decide

theorem numChar_not_ws {c : Char} (h : numChar c = true) : isWs c = false := by
  rcases numChar_cases h with ⟨hlo, hhi⟩ | rfl | rfl
  · simp only [isWs, decide_eq_false_iff_not]
    rintro (rfl | rfl | rfl | rfl) <;> revert hlo hhi <;> decide
  · decide
  · decide

theorem numChar_not_comma {c : Char} (h : numChar c = true) : ¬(c = ',') := by
  rcases numChar_cases h with ⟨hlo, hhi⟩ | rfl | rfl
  · rintro rfl; revert hlo hhi; decide
  · decide
  · decide

theorem numChar_not_braceL {c : Char} (h : numChar c = true) : ¬(c = braceL) := by
  rcases numChar_cases h with ⟨hlo, hhi⟩ | rfl | rfl
  · rintro rfl; revert hlo hhi; decide
  · decide
  · decide

theorem numChar_not_braceR {c : Char} (h : numChar c = true) : ¬(c = braceR) := by
  rcases numChar_cases h with ⟨hlo, hhi⟩ | rfl | rfl
  · rintro rfl; revert hlo hhi; decide
  · decide
  · decide

/-!  ## Decimal numeral lemmas  -/

theorem digsToNat_append (ds : List Nat) (d : Nat) :
    digsToNat (ds ++ [d]) = digsToNat ds * 10 + d := by
  simp [digsToNat, List.foldl_append]

theorem digsToNat_cons_zero (ds : List Nat) :
    digsToNat (0 :: ds) = digsToNat ds := by
  simp [digsToNat]

theorem digsToNat_replicate_zero (k : Nat) (ds : List Nat) :
    digsToNat (List.replicate k 0 ++ ds) = digsToNat ds := by
  induction k with
  | zero => simp
  | succ k ih => simpa [List.replicate_succ, digsToNat_cons_zero] using ih

theorem natToDigsF_spec : ∀ f n, n ≤ f → digsToNat (natToDigsF f n) = n := by
  intro f
  induction f with
  | zero => intro n hn; interval_cases n; simp [natToDigsF, digsToNat]
  | succ f ih =>
    intro n hn
    by_cases h0 : n = 0
    · simp [natToDigsF, h0, digsToNat]
    · have hdiv : n / 10 ≤ f := by
        have : n / 10 < n := Nat.div_lt_self (Nat.pos_of_ne_zero h0) (by norm_num)
        omega
      simp only [natToDigsF, h0, if_false, digsToNat_append, ih _ hdiv]
      omega

theorem digsToNat_natToDigs (n : Nat) : digsToNat (natToDigs n) = n :=
  natToDigsF_spec n n le_rfl

theorem natToDigsF_lt_ten : ∀ f n d, d ∈ natToDigsF f n → d < 10 := by
  intro f
  induction f with
  | zero => intro n d hd; simp [natToDigsF] at hd
  | succ f ih =>
    intro n d hd
    by_cases h0 : n = 0
    · simp [natToDigsF, h0] at hd
    · simp only [natToDigsF, h0, if_false, List.mem_append, List.mem_singleton] at hd
      rcases hd with hd | rfl
      · exact ih _ _ hd
      · omega

theorem natToDigs_lt_ten (n d : Nat) (hd : d ∈ natToDigs n) : d < 10 :=
  natToDigsF_lt_ten n n d hd

theorem natToDigs_ne_nil (n : Nat) (hn : n ≠ 0) : natToDigs n ≠ [] := by
  intro h
  have := digsToNat_natToDigs n
  rw [h] at this
  simp [digsToNat] at this
  omega

theorem natToDigsF_len_le : ∀ f n k, n < 10 ^ k → (natToDigsF f n).length ≤ k := by
  intro f
  induction f with
  | zero => intro n k _; simp [natToDigsF]
  | succ f ih =>
    intro n k hk
    by_cases h0 : n = 0
    · simp [natToDigsF, h0]
    · have hkpos : k ≠ 0 := by
        intro hk0; rw [hk0] at hk; simp at hk; omega
      obtain ⟨k', rfl⟩ : ∃ k', k = k' + 1 := ⟨k - 1, by omega⟩
      have hdiv : n / 10 < 10 ^ k' := by
        rw [pow_succ] at hk
        exact Nat.div_lt_of_lt_mul (by omega)
      simp only [natToDigsF, h0, if_false, List.length_append, List.length_singleton]
      have := ih (n / 10) k' hdiv
      omega

theorem natToDigs_len_le (n k : Nat) (hk : n < 10 ^ k) : (natToDigs n).length ≤ k :=
  natToDigsF_len_le n n k hk

/-!  ## Reading digits back  -/

theorem readDigits_not_digit {c : Char} (h : digitOfChar c = Option.none)
    (cs : List Char) : readDigits (c :: cs) = ([], c :: cs) := by
  simp [readDigits, h]

theorem readDigits_map_charOfDigit (ds : List Nat) (hds : ∀ d ∈ ds, d < 10)
    (rest : List Char) :
    readDigits (ds.map charOfDigit ++ rest) =
      (ds ++ (readDigits rest).1, (readDigits rest).2) := by
  induction ds with
  | nil => simp
  | cons d ds ih =>
    have hd : d < 10 := hds d (List.mem_cons_self d ds)
    simp only [List.map_cons, List.cons_append, readDigits,
      charOfDigit_digit d hd, List.append_eq]
    rw [ih (fun x hx => hds x (List.mem_cons_of_mem d hx))]

theorem readNatAll_natToChars (n : Nat) : readNatAll (natToChars n) = some n := by
  by_cases h0 : n = 0
  · subst h0; decide
  · have hall := fun d hd => natToDigs_lt_ten n d hd
    have hne := natToDigs_ne_nil n h0
    simp only [natToChars, h0, if_false, readNatAll]
    have := readDigits_map_charOfDigit (natToDigs n) hall []
    simp only [List.append_nil] at this
    rw [this]
    simp [readDigits, hne, digsToNat_natToDigs]

/-!  ## Trimming lemmas  -/

theorem dropWhile_eq_self_of_head {cs : List Char}
    (h : isWs (cs.headD 'a') = false) : cs.dropWhile isWs = cs := by
  cases cs with
  | nil => rfl
  | cons c cs => simp only [List.headD_cons] at h; simp [List.dropWhile_cons, h]

theorem trimChars_eq_self {cs : List Char}
    (h1 : isWs (cs.headD 'a') = false) (h2 : isWs (cs.getLastD 'a') = false) :
    trimChars cs = cs := by
  unfold trimChars
  rw [dropWhile_eq_self_of_head h1]
  have hrev : isWs (cs.reverse.headD 'a') = false := by
    cases cs with
    | nil => simpa using h2
    | cons c cs =>
      rw [List.headD_eq_head?, List.head?_reverse]
      rwa [List.getLastD_eq_getLast?] at h2
  rw [dropWhile_eq_self_of_head hrev, List.reverse_reverse]

theorem trimChars_no_ws {cs : List Char}
    (h : ∀ c ∈ cs, isWs c = false) : trimChars cs = cs := by
  apply trimChars_eq_self
  · cases cs with
    | nil => decide
    | cons c cs => exact h c (List.mem_cons_self c cs)
  · cases hcs : cs.getLast? with
    | none =>
      rcases List.getLast?_eq_none_iff.mp hcs with rfl
      decide
    | some c =>
      rw [List.getLastD_eq_getLast?, hcs]
      rcases List.getLast?_eq_some_iff.mp hcs with ⟨ys, rfl⟩
      exact h c (by simp)

/-!  ## Integer round trip  -/

theorem charOfDigit_range (d : Nat) :
    48 ≤ (charOfDigit d).toNat ∧ (charOfDigit d).toNat ≤ 57 := by
  unfold charOfDigit
  repeat' split
  all_goals decide

theorem natToChars_range (m : Nat) :
    ∀ c ∈ natToChars m, 48 ≤ c.toNat ∧ c.toNat ≤ 57 := by
  intro c hc
  unfold natToChars at hc
  split at hc
  · simp only [List.mem_singleton] at hc; subst hc; decide
  · rcases List.mem_map.mp hc with ⟨d, _, rfl⟩
    exact charOfDigit_range d

theorem intToChars_numChar (n : Int) : ∀ c ∈ intToChars n, numChar c = true := by
  intro c hc
  unfold intToChars at hc
  split at hc
  · rcases List.mem_cons.mp hc with rfl | hc'
    · decide
    · have := natToChars_range n.natAbs c hc'
      simp [numChar, this]
  · have := natToChars_range n.natAbs c hc
    simp [numChar, this]

theorem natToChars_ne_nil (m : Nat) : natToChars m ≠ [] := by
  unfold natToChars
  split
  · exact List.cons_ne_nil _ _
  · intro h
    have h2 : natToDigs m = [] := by simpa using congrArg List.length h
    exact natToDigs_ne_nil m (by assumption) h2

theorem intToChars_ne_nil (n : Int) : intToChars n ≠ [] := by
  unfold intToChars
  split
  · exact List.cons_ne_nil _ _
  · exact natToChars_ne_nil n.natAbs

theorem readIntAll_natToChars (m : Nat) :
    readIntAll (natToChars m) = some (m : Int) := by
  have hne : natToChars m ≠ [] := natToChars_ne_nil m
  obtain ⟨c, cs, hc⟩ : ∃ c cs, natToChars m = c :: cs := by
    cases h : natToChars m with
    | nil => exact absurd h hne
    | cons c cs => exact ⟨c, cs, rfl⟩
  have hcrange : 48 ≤ c.toNat ∧ c.toNat ≤ 57 :=
    natToChars_range m c (by rw [hc]; exact List.mem_cons_self c cs)
  have hcm : ¬(c = '-') := by rintro rfl; revert hcrange; decide
  have hcp : ¬(c = '+') := by rintro rfl; revert hcrange; decide
  rw [hc, readIntAll, if_neg hcm, if_neg hcp, ← hc, readNatAll_natToChars]
  rfl

theorem pyIntOfStr_intToChars (n : Int) :
    pyIntOfStr (String.mk (intToChars n)) = some n := by
  have htrim : trimChars (intToChars n) = intToChars n :=
    trimChars_no_ws (fun c hc => numChar_not_ws (intToChars_numChar n c hc))
  have hlist : (String.mk (intToChars n)).toList = intToChars n := rfl
  rw [pyIntOfStr, hlist, htrim]
  unfold intToChars
  split
  · rename_i hneg
    rw [readIntAll, if_pos rfl, readNatAll_natToChars]
    show some (-(n.natAbs : Int)) = some n
    congr 1
    omega
  · rename_i hpos
    rw [readIntAll_natToChars]
    congr 1
    omega


/-!  ## Float round trip  -/

theorem floatDigits_sum (a e : Nat) : digsToNat (floatDigits a e) = a := by
  rw [floatDigits, digsToNat_replicate_zero, digsToNat_natToDigs]

theorem floatDigits_lt_ten (a e : Nat) : ∀ d ∈ floatDigits a e, d < 10 := by
  intro d hd
  rcases List.mem_append.mp hd with hd | hd
  · have := List.eq_of_mem_replicate hd; omega
  · exact natToDigs_lt_ten a d hd

theorem floatDigits_len (a e : Nat) : e + 1 ≤ (floatDigits a e).length := by
  simp only [floatDigits, List.length_append, List.length_replicate]
  omega

theorem floatToChars_numChar (m : Int) (e : Nat) :
    ∀ c ∈ floatToChars m e, numChar c = true := by
  intro c hc
  unfold floatToChars at hc
  rcases List.mem_append.mp hc with h | h
  · split at h
    · simp only [List.mem_singleton] at h; subst h; decide
    · simp at h
  · split at h
    · rcases List.mem_append.mp h with h2 | h2
      · rcases List.mem_map.mp h2 with ⟨d, _, rfl⟩
        exact charOfDigit_numChar d
      · rcases List.mem_cons.mp h2 with rfl | h3
        · decide
        · simp only [List.mem_singleton] at h3; subst h3; decide
    · rcases List.mem_append.mp h with h2 | h2
      · rcases List.mem_map.mp h2 with ⟨d, _, rfl⟩
        exact charOfDigit_numChar d
      · rcases List.mem_cons.mp h2 with rfl | h3
        · decide
        · rcases List.mem_map.mp h3 with ⟨d, _, rfl⟩
          exact charOfDigit_numChar d

theorem splitSign_neg (r : List Char) : splitSign ('-' :: r) = (true, r) := by
  simp [splitSign]

theorem splitSign_digit {c : Char} (hc : 48 ≤ c.toNat ∧ c.toNat ≤ 57)
    (r : List Char) : splitSign (c :: r) = (false, c :: r) := by
  rw [splitSign, if_neg (by rintro rfl; revert hc; decide),
    if_neg (by rintro rfl; revert hc; decide)]

theorem mkFloatExp_zero (m : Int) (e : Nat) : mkFloatExp m e 0 = .vfloat m e := by
  unfold mkFloatExp
  rw [if_pos le_rfl]
  by_cases he : e = 0
  · subst he; simp
  · rw [if_neg (by simpa using he)]
    simp

theorem finishFloat_done (sgn : Bool) (I F : List Nat) (hI : I ≠ []) :
    finishFloat sgn I F [] =
      some (.vfloat
        (if sgn then -(digsToNat (I ++ F) : Int) else (digsToNat (I ++ F) : Int))
        F.length) := by
  rw [finishFloat, if_neg (by simp [hI])]
  rw [mkFloatExp_zero]

theorem floatBody_parse (a e : Nat) :
    readDigits (if e = 0 then (floatDigits a e).map charOfDigit ++ ['.', '0']
      else
        ((floatDigits a e).take ((floatDigits a e).length - e)).map charOfDigit ++
          '.' :: ((floatDigits a e).drop ((floatDigits a e).length - e)).map
            charOfDigit) =
    (if e = 0 then (floatDigits a e, ['.', '0'])
     else ((floatDigits a e).take ((floatDigits a e).length - e),
       '.' :: ((floatDigits a e).drop ((floatDigits a e).length - e)).map
         charOfDigit)) := by
  split
  · rw [readDigits_map_charOfDigit _ (floatDigits_lt_ten a e),
      readDigits_not_digit (by decide)]
    simp
  · have hlt : ∀ d ∈ (floatDigits a e).take ((floatDigits a e).length - e), d < 10 :=
      fun d hd => floatDigits_lt_ten a e d (List.take_subset _ _ hd)
    rw [readDigits_map_charOfDigit _ hlt, readDigits_not_digit (by decide)]
    simp

theorem readFloatAll_floatToChars (m : Int) (e : Nat) :
    readFloatAll (floatToChars m e) =
      some (if e = 0 then PgVal.vfloat (m * 10) 1 else PgVal.vfloat m e) := by
  have hds_len := floatDigits_len m.natAbs e
  have hsgn : splitSign (floatToChars m e) =
      (decide (m < 0),
        if e = 0 then (floatDigits m.natAbs e).map charOfDigit ++ ['.', '0']
        else
          ((floatDigits m.natAbs e).take ((floatDigits m.natAbs e).length - e)).map
            charOfDigit ++
            '.' :: ((floatDigits m.natAbs e).drop
              ((floatDigits m.natAbs e).length - e)).map charOfDigit) := by
    unfold floatToChars
    by_cases hm : m < 0
    · rw [if_pos hm, List.singleton_append, splitSign_neg]
      simp [hm]
    · rw [if_neg hm, List.nil_append]
      have hdm : decide (m < 0) = false := by simp [hm]
      rw [hdm]
      -- the body starts with a digit character, so no sign is consumed
      split
      · obtain ⟨d0, ds', hcons⟩ : ∃ d0 ds',
            floatDigits m.natAbs e = d0 :: ds' := by
          cases h : floatDigits m.natAbs e with
          | nil => rw [h] at hds_len; simp at hds_len
          | cons d0 ds' => exact ⟨d0, ds', rfl⟩
        rw [hcons, List.map_cons, List.cons_append,
          splitSign_digit (charOfDigit_range d0)]
      · obtain ⟨d0, ds', hcons⟩ : ∃ d0 ds',
            (floatDigits m.natAbs e).take ((floatDigits m.natAbs e).length - e) =
              d0 :: ds' := by
          rename_i he
          cases h : (floatDigits m.natAbs e).take
              ((floatDigits m.natAbs e).length - e) with
          | nil =>
            have := congrArg List.length h
            rw [List.length_take] at this
            simp at this
            omega
          | cons d0 ds' => exact ⟨d0, ds', rfl⟩
        rw [hcons, List.map_cons, List.cons_append,
          splitSign_digit (charOfDigit_range d0)]
  rw [readFloatAll, hsgn]
  simp only []
  rw [floatBody_parse m.natAbs e]
  by_cases he : e = 0
  · simp only [if_pos he]
    have hfrac : readFrac ['.', '0'] = ([0], []) := by decide
    rw [hfrac]
    simp only []
    rw [finishFloat_done _ _ _ (by
      intro h
      rw [h] at hds_len
      simp at hds_len)]
    rw [digsToNat_append, floatDigits_sum]
    by_cases hm : m < 0
    · rw [show decide (m < 0) = true by simp [hm]]
      rw [if_pos rfl]
      congr 2
      omega
    · rw [show decide (m < 0) = false by simp [hm]]
      rw [if_neg (by simp)]
      congr 2
      omega
  · simp only [if_neg he]
    have hfrac : readFrac ('.' :: ((floatDigits m.natAbs e).drop
        ((floatDigits m.natAbs e).length - e)).map charOfDigit) =
        ((floatDigits m.natAbs e).drop ((floatDigits m.natAbs e).length - e), []) := by
      rw [show readFrac ('.' :: ((floatDigits m.natAbs e).drop
          ((floatDigits m.natAbs e).length - e)).map charOfDigit) =
        readDigits (((floatDigits m.natAbs e).drop
          ((floatDigits m.natAbs e).length - e)).map charOfDigit) from rfl]
      have hlt : ∀ d ∈ (floatDigits m.natAbs e).drop
          ((floatDigits m.natAbs e).length - e), d < 10 :=
        fun d hd => floatDigits_lt_ten m.natAbs e d (List.drop_subset _ _ hd)
      have := readDigits_map_charOfDigit _ hlt []
      simpa [readDigits] using this
    rw [hfrac]
    simp only []
    rw [finishFloat_done _ _ _ (by
      intro h
      have := congrArg List.length h
      rw [List.length_take] at this
      simp at this
      omega)]
    rw [List.take_append_drop, floatDigits_sum, List.length_drop]
    have hlen : (floatDigits m.natAbs e).length -
        ((floatDigits m.natAbs e).length - e) = e := by omega
    rw [hlen]
    by_cases hm : m < 0
    · rw [show decide (m < 0) = true by simp [hm]]
      rw [if_pos rfl]
      congr 2
      omega
    · rw [show decide (m < 0) = false by simp [hm]]
      rw [if_neg (by simp)]
      congr 2
      omega


/-!  ## Tokenizer lemmas  -/

theorem splitTop_nil (d : Nat) :
    splitTop [] d = if d = 0 then some [[]] else Option.none := rfl

theorem splitTop_ne_nil : ∀ cs d ts, splitTop cs d = some ts → ts ≠ [] := by
  intro cs
  induction cs with
  | nil =>
    intro d ts h
    rw [splitTop_nil] at h
    split at h
    · obtain rfl : [[]] = ts := by simpa using h
      simp
    · exact absurd h (by simp)
  | cons c cs ih =>
    intro d ts h
    rw [splitTop] at h
    split at h
    · cases h2 : splitTop cs 0 with
      | none => rw [h2] at h; exact absurd h (by simp)
      | some ts' => rw [h2] at h; simp at h; subst h; simp
    · split at h
      · cases h2 : splitTop cs (d + 1) with
        | none => rw [h2] at h; exact absurd h (by simp)
        | some ts' =>
          rw [h2] at h; simp at h; subst h
          have h3 := ih (d + 1) ts' h2
          cases ts' with
          | nil => simp at h3
          | cons t ts'' => simp [consTok]
      · split at h
        · split at h
          · exact absurd h (by simp)
          · cases h2 : splitTop cs (d - 1) with
            | none => rw [h2] at h; exact absurd h (by simp)
            | some ts' =>
              rw [h2] at h; simp at h; subst h
              have h3 := ih (d - 1) ts' h2
              cases ts' with
              | nil => simp at h3
              | cons t ts'' => simp [consTok]
        · cases h2 : splitTop cs d with
          | none => rw [h2] at h; exact absurd h (by simp)
          | some ts' =>
            rw [h2] at h; simp at h; subst h
            have h3 := ih d ts' h2
            cases ts' with
            | nil => simp at h3
            | cons t ts'' => simp [consTok]

theorem consTok_prependTok (c : Char) (t : List Char) (ts : List (List Char)) :
    consTok c (prependTok t ts) = prependTok (c :: t) ts := by
  cases ts <;> simp [consTok, prependTok]

theorem prependTok_nil {ts : List (List Char)} (h : ts ≠ []) :
    prependTok [] ts = ts := by
  cases ts with
  | nil => exact absurd rfl h
  | cons t ts' => simp [prependTok]

theorem accAll_shift : ∀ (cs : List Char) (d e k : Nat),
    accAll cs d = some e → accAll cs (d + k) = some (e + k) := by
  intro cs
  induction cs with
  | nil =>
    intro d e k h
    simp only [accAll] at h ⊢
    simp at h
    subst h
    rfl
  | cons c cs ih =>
    intro d e k h
    rw [accAll] at h
    rw [accAll]
    split at h
    · exact absurd h (by simp)
    · rename_i hcomma
      rw [if_neg (by
        rintro ⟨rfl, hdk⟩
        exact hcomma ⟨rfl, by omega⟩)]
      split at h
      · rename_i hbl
        rw [if_pos hbl]
        have h3 := ih (d + 1) e k h
        rw [show d + 1 + k = d + k + 1 by omega] at h3
        exact h3
      · rename_i hbl
        rw [if_neg hbl]
        split at h
        · rename_i hbr
          rw [if_pos hbr]
          split at h
          · exact absurd h (by simp)
          · rename_i hd0
            rw [if_neg (by omega)]
            have h3 := ih (d - 1) e k h
            rw [show d + k - 1 = d - 1 + k by omega]
            exact h3
        · rename_i hbr
          rw [if_neg hbr]
          exact ih d e k h

theorem accAll_append : ∀ (a : List Char) (b : List Char) (d e : Nat),
    accAll a d = some e → accAll (a ++ b) d = accAll b e := by
  intro a
  induction a with
  | nil =>
    intro b d e h
    simp only [accAll] at h
    simp at h
    subst h
    simp
  | cons c a ih =>
    intro b d e h
    rw [accAll] at h
    rw [List.cons_append, accAll]
    split at h
    · exact absurd h (by simp)
    · rename_i hcomma
      rw [if_neg hcomma]
      split at h
      · rename_i hbl
        rw [if_pos hbl]
        exact ih b (d + 1) e h
      · rename_i hbl
        rw [if_neg hbl]
        split at h
        · rename_i hbr
          rw [if_pos hbr]
          split at h
          · exact absurd h (by simp)
          · rename_i hd0
            rw [if_neg hd0]
            exact ih b (d - 1) e h
        · rename_i hbr
          rw [if_neg hbr]
          exact ih b d e h

theorem splitTop_accAll : ∀ (t : List Char) (d e : Nat) (rest : List Char),
    accAll t d = some e →
    splitTop (t ++ rest) d = (splitTop rest e).map (prependTok t) := by
  intro t
  induction t with
  | nil =>
    intro d e rest h
    simp only [accAll] at h
    simp at h
    subst h
    simp only [List.nil_append]
    cases h2 : splitTop rest d with
    | none => simp
    | some ts => simp [prependTok_nil (splitTop_ne_nil rest d ts h2)]
  | cons c t ih =>
    intro d e rest h
    rw [accAll] at h
    rw [List.cons_append, splitTop]
    split at h
    · exact absurd h (by simp)
    · rename_i hcomma
      rw [if_neg hcomma]
      split at h
      · rename_i hbl
        rw [if_pos hbl]
        rw [ih (d + 1) e rest h]
        cases h2 : splitTop rest e with
        | none => simp
        | some ts => simp [consTok_prependTok]
      · rename_i hbl
        rw [if_neg hbl]
        split at h
        · rename_i hbr
          rw [if_pos hbr]
          split at h
          · exact absurd h (by simp)
          · rename_i hd0
            rw [if_neg hd0]
            rw [ih (d - 1) e rest h]
            cases h2 : splitTop rest e with
            | none => simp
            | some ts => simp [consTok_prependTok]
        · rename_i hbr
          rw [if_neg hbr]
          rw [ih d e rest h]
          cases h2 : splitTop rest e with
          | none => simp
          | some ts => simp [consTok_prependTok]

theorem splitTop_joinC : ∀ ts : List (List Char), ts ≠ [] →
    (∀ t ∈ ts, accAll t 0 = some 0) →
    splitTop (joinC ts) 0 = some ts := by
  intro ts
  induction ts with
  | nil => intro h; exact absurd rfl h
  | cons t ts ih =>
    intro _ hall
    cases ts with
    | nil =>
      have hacc := hall t (List.mem_cons_self _ _)
      rw [show joinC [t] = t from rfl, show t = t ++ ([] : List Char) by simp,
        splitTop_accAll t 0 0 [] hacc]
      rfl
    | cons u ts' =>
      have hacc := hall t (List.mem_cons_self _ _)
      rw [show joinC (t :: u :: ts') = t ++ ',' :: joinC (u :: ts') from rfl,
        splitTop_accAll t 0 0 (',' :: joinC (u :: ts')) hacc]
      rw [show splitTop (',' :: joinC (u :: ts')) 0 =
        (match splitTop (joinC (u :: ts')) 0 with
         | some ts => some ([] :: ts)
         | Option.none => Option.none) from by rw [splitTop]; rfl]
      rw [ih (by simp) (fun x hx => hall x (List.mem_cons_of_mem t hx))]
      simp [prependTok]

/-!  ## Rendering lemmas  -/

theorem renderList_eq_joinC : ∀ xs : List PgVal,
    renderList xs = joinC (xs.map renderElem) := by
  intro xs
  match xs with
  | [] => rfl
  | [x] => rfl
  | x :: y :: xs =>
    rw [show renderList (x :: y :: xs) =
      renderElem x ++ ',' :: renderList (y :: xs) from rfl]
    rw [renderList_eq_joinC (y :: xs)]
    rfl

theorem getLastD_append_right : ∀ (a b : List Char), b ≠ [] → ∀ d : Char,
    (a ++ b).getLastD d = b.getLastD d := by
  intro a
  induction a with
  | nil => intro b _ d; rfl
  | cons c a ih =>
    intro b hb d
    rw [List.cons_append, List.getLastD_cons]
    cases hab : a ++ b with
    | nil =>
      rcases List.append_eq_nil.mp hab with ⟨rfl, rfl⟩
      exact absurd rfl hb
    | cons x l =>
      rw [← hab, ih b hb c]
      cases b with
      | nil => exact absurd rfl hb
      | cons y l' => rw [List.getLastD_cons, List.getLastD_cons]

theorem headD_append_left {a : List Char} (ha : a ≠ []) (b : List Char) (d : Char) :
    (a ++ b).headD d = a.headD d := by
  cases a with
  | nil => exact absurd rfl ha
  | cons c a' => rfl

theorem head_last_of_all {cs : List Char} (h : ∀ c ∈ cs, isWs c = false)
    (hne : cs ≠ []) :
    isWs (cs.headD 'a') = false ∧ isWs (cs.getLastD 'a') = false := by
  constructor
  · cases cs with
    | nil => exact absurd rfl hne
    | cons c cs' => exact h c (List.mem_cons_self c cs')
  · cases hcs : cs.getLast? with
    | none =>
      rcases List.getLast?_eq_none_iff.mp hcs with rfl
      exact absurd rfl hne
    | some c =>
      rw [List.getLastD_eq_getLast?, hcs]
      rcases List.getLast?_eq_some_iff.mp hcs with ⟨ys, rfl⟩
      exact h c (by simp)

theorem accAll_plain : ∀ (cs : List Char),
    (∀ c ∈ cs, numChar c = true) → ∀ d, accAll cs d = some d := by
  intro cs
  induction cs with
  | nil => intro _ d; rfl
  | cons c cs ih =>
    intro h d
    have hc := h c (List.mem_cons_self c cs)
    rw [accAll,
      if_neg (fun hx => numChar_not_comma hc hx.1),
      if_neg (numChar_not_braceL hc),
      if_neg (numChar_not_braceR hc)]
    exact ih (fun x hx => h x (List.mem_cons_of_mem c hx)) d

theorem accAll_joinC_one : ∀ ts : List (List Char),
    (∀ t ∈ ts, accAll t 0 = some 0) → accAll (joinC ts) 1 = some 1 := by
  intro ts
  match ts with
  | [] => intro _; rfl
  | [t] =>
    intro hall
    have := accAll_shift t 0 0 1 (hall t (List.mem_cons_self _ _))
    simpa using this
  | t :: u :: ts' =>
    intro hall
    rw [show joinC (t :: u :: ts') = t ++ ',' :: joinC (u :: ts') from rfl]
    have ht : accAll t 1 = some 1 := by
      have := accAll_shift t 0 0 1 (hall t (List.mem_cons_self _ _))
      simpa using this
    rw [accAll_append t _ 1 1 ht]
    rw [accAll, if_neg (by rintro ⟨_, h⟩; omega),
      if_neg (by decide), if_neg (by decide)]
    exact accAll_joinC_one (u :: ts') (fun x hx => hall x (List.mem_cons_of_mem t hx))

theorem floatToChars_ne_nil (m : Int) (e : Nat) : floatToChars m e ≠ [] := by
  unfold floatToChars
  intro h
  rcases List.append_eq_nil.mp h with ⟨_, h2⟩
  split at h2
  · rcases List.append_eq_nil.mp h2 with ⟨_, h3⟩
    simp at h3
  · rcases List.append_eq_nil.mp h2 with ⟨_, h3⟩
    simp at h3

theorem safeTextB_spec {cs : List Char} (h : safeTextB cs = true) :
    cs ≠ [] ∧ (∀ c ∈ cs, ¬(c = ',') ∧ ¬(c = braceL) ∧ ¬(c = braceR)) ∧
      isWs (cs.headD 'a') = false ∧ isWs (cs.getLastD 'a') = false := by
  simp only [safeTextB, Bool.and_eq_true, Bool.not_eq_true', List.all_eq_true] at h
  obtain ⟨⟨⟨h1, h2⟩, h3⟩, h4⟩ := h
  refine ⟨by simpa using h1, ?_, ?_, ?_⟩
  · intro c hc
    have := h2 c hc
    simp only [Bool.not_eq_true', decide_eq_false_iff_not] at this
    push_neg at this
    exact ⟨by simpa using fun hx => this.1 hx, this.2.1, this.2.2⟩
  · cases cs with
    | nil => simp at h1
    | cons c cs' => simpa using h3
  · cases cs with
    | nil => simp at h1
    | cons c cs' => simpa using h4

theorem accAll_no_delim : ∀ cs : List Char,
    (∀ c ∈ cs, ¬(c = ',') ∧ ¬(c = braceL) ∧ ¬(c = braceR)) →
    ∀ d, accAll cs d = some d := by
  intro cs
  induction cs with
  | nil => intro _ d; rfl
  | cons c cs ih =>
    intro hdelim d
    have hc := hdelim c (List.mem_cons_self c cs)
    rw [accAll, if_neg (fun hx => hc.1 hx.1), if_neg hc.2.1, if_neg hc.2.2]
    exact ih (fun x hx => hdelim x (List.mem_cons_of_mem c hx)) d

theorem safeText_accAll {cs : List Char} (h : safeTextB cs = true) :
    ∀ d, accAll cs d = some d :=
  accAll_no_delim cs (safeTextB_spec h).2.1

theorem depthElem_le_depthList : ∀ (xs : List PgVal) (v : PgVal), v ∈ xs →
    depthElem v ≤ depthList xs := by
  intro xs
  induction xs with
  | nil => intro v hv; simp at hv
  | cons x xs ih =>
    intro v hv
    rw [show depthList (x :: xs) = max (depthElem x) (depthList xs) from rfl]
    rcases List.mem_cons.mp hv with rfl | hv'
    · exact le_max_left _ _
    · exact le_trans (ih v hv') (le_max_right _ _)

theorem safe_static : ∀ v, SafeElem v →
    renderElem v ≠ [] ∧ isWs ((renderElem v).headD 'a') = false ∧
      isWs ((renderElem v).getLastD 'a') = false ∧
      accAll (renderElem v) 0 = some 0 := by
  intro v hv
  induction hv with
  | int n =>
    rw [show renderElem (.vint n) = intToChars n from rfl]
    have hnum := intToChars_numChar n
    have hne := intToChars_ne_nil n
    have hws : ∀ c ∈ intToChars n, isWs c = false :=
      fun c hc => numChar_not_ws (hnum c hc)
    obtain ⟨hh, hl⟩ := head_last_of_all hws hne
    exact ⟨hne, hh, hl, accAll_plain _ hnum 0⟩
  | float m e =>
    rw [show renderElem (.vfloat m e) = floatToChars m e from rfl]
    have hnum := floatToChars_numChar m e
    have hne := floatToChars_ne_nil m e
    have hws : ∀ c ∈ floatToChars m e, isWs c = false :=
      fun c hc => numChar_not_ws (hnum c hc)
    obtain ⟨hh, hl⟩ := head_last_of_all hws hne
    exact ⟨hne, hh, hl, accAll_plain _ hnum 0⟩
  | text s hs =>
    rw [show renderElem (.vstr s) = s.toList from rfl]
    obtain ⟨hne, _, hh, hl⟩ := safeTextB_spec hs
    exact ⟨hne, hh, hl, safeText_accAll hs 0⟩
  | list xs hmem ih =>
    rw [show renderElem (.vlist xs) = braceL :: renderList xs ++ [braceR] from rfl]
    refine ⟨by simp, ?_, ?_, ?_⟩
    · show isWs braceL = false
      decide
    · rw [show braceL :: renderList xs ++ [braceR] =
        (braceL :: renderList xs) ++ [braceR] from rfl]
      rw [getLastD_append_right _ _ (by simp) 'a']
      decide
    · rw [show (braceL :: renderList xs ++ [braceR]) =
        braceL :: (renderList xs ++ [braceR]) from rfl]
      rw [accAll, if_neg (by rintro ⟨h, _⟩; revert h; decide), if_pos rfl]
      have hmembers : accAll (renderList xs) 1 = some 1 := by
        rw [renderList_eq_joinC]
        apply accAll_joinC_one
        intro t ht
        rcases List.mem_map.mp ht with ⟨w, hw, rfl⟩
        exact (ih w hw).2.2.2
      rw [accAll_append _ _ 1 1 hmembers]
      rw [accAll, if_neg (by rintro ⟨h, _⟩; revert h; decide),
        if_neg (by decide), if_pos rfl, if_neg (by omega)]
      rfl

/-!  ## The main parse lemma  -/

theorem getLastD_default_irrel {l : List Char} (h : l ≠ []) (d d' : Char) :
    l.getLastD d = l.getLastD d' := by
  cases hl : l.getLast? with
  | none => exact absurd (List.getLast?_eq_none_iff.mp hl) h
  | some c => rw [List.getLastD_eq_getLast?, List.getLastD_eq_getLast?, hl]; rfl

theorem renderList_facts : ∀ xs : List PgVal, xs ≠ [] →
    (∀ v ∈ xs, renderElem v ≠ [] ∧ isWs ((renderElem v).headD 'a') = false ∧
      isWs ((renderElem v).getLastD 'a') = false) →
    renderList xs ≠ [] ∧ isWs ((renderList xs).headD 'a') = false ∧
      isWs ((renderList xs).getLastD 'a') = false := by
  intro xs
  match xs with
  | [] => intro h; exact absurd rfl h
  | [x] =>
    intro _ hall
    rw [show renderList [x] = renderElem x from rfl]
    exact hall x (List.mem_cons_self _ _)
  | x :: y :: xs' =>
    intro _ hall
    have hx := hall x (List.mem_cons_self _ _)
    have hrest := renderList_facts (y :: xs') (by simp)
      (fun v hv => hall v (List.mem_cons_of_mem x hv))
    rw [show renderList (x :: y :: xs') =
      renderElem x ++ ',' :: renderList (y :: xs') from rfl]
    refine ⟨by simp [hx.1], ?_, ?_⟩
    · rw [headD_append_left hx.1]
      exact hx.2.1
    · rw [getLastD_append_right _ _ (by simp) 'a', List.getLastD_cons,
        getLastD_default_irrel hrest.1 ',' 'a']
      exact hrest.2.2

theorem mapM_parse : ∀ (xs : List PgVal) (g : List Char → Option PgVal),
    (∀ v ∈ xs, g (renderElem v) = some (stringifyElem v)) →
    (xs.map renderElem).mapM g = some (stringifyList xs) := by
  intro xs
  induction xs with
  | nil => intro g _; rfl
  | cons x xs ih =>
    intro g hall
    rw [List.map_cons, List.mapM_cons, hall x (List.mem_cons_self _ _),
      ih g (fun v hv => hall v (List.mem_cons_of_mem x hv))]
    rfl

theorem parseTokWith_plain (g : List Char → Option (List PgVal)) (t : List Char)
    (htrim : trimChars t = t) (hhead : ¬(t.head? = some braceL)) :
    parseTokWith g t = some (.vstr (String.mk t)) := by
  rw [parseTokWith, htrim, if_neg (fun h => hhead h.1)]

theorem parse_render : ∀ v, SafeElem v → ∀ f, depthElem v ≤ f →
    parseTokWith (parseArrF f) (renderElem v) = some (stringifyElem v) := by
  intro v hv
  induction hv with
  | int n =>
    intro f _
    have hnum := intToChars_numChar n
    have hne := intToChars_ne_nil n
    have htrim : trimChars (intToChars n) = intToChars n :=
      trimChars_no_ws (fun c hc => numChar_not_ws (hnum c hc))
    rw [show renderElem (.vint n) = intToChars n from rfl]
    rw [parseTokWith_plain _ _ htrim ?_]
    · rfl
    · cases hcons : intToChars n with
      | nil => exact absurd hcons hne
      | cons c t' =>
        have hc := hnum c (by rw [hcons]; exact List.mem_cons_self _ _)
        simp only [List.head?_cons]
        intro h
        exact numChar_not_braceL hc (by injection h)
  | float m e =>
    intro f _
    have hnum := floatToChars_numChar m e
    have hne := floatToChars_ne_nil m e
    have htrim : trimChars (floatToChars m e) = floatToChars m e :=
      trimChars_no_ws (fun c hc => numChar_not_ws (hnum c hc))
    rw [show renderElem (.vfloat m e) = floatToChars m e from rfl]
    rw [parseTokWith_plain _ _ htrim ?_]
    · rfl
    · cases hcons : floatToChars m e with
      | nil => exact absurd hcons hne
      | cons c t' =>
        have hc := hnum c (by rw [hcons]; exact List.mem_cons_self _ _)
        simp only [List.head?_cons]
        intro h
        exact numChar_not_braceL hc (by injection h)
  | text s hs =>
    intro f _
    obtain ⟨hne, hdelim, hh, hl⟩ := safeTextB_spec hs
    have htrim : trimChars s.toList = s.toList := trimChars_eq_self hh hl
    rw [show renderElem (.vstr s) = s.toList from rfl]
    rw [parseTokWith_plain _ _ htrim ?_]
    · rw [show String.mk s.toList = s from rfl]
      rfl
    · cases hcons : s.toList with
      | nil => exact absurd hcons hne
      | cons c t' =>
        have hc := hdelim c (by rw [hcons]; exact List.mem_cons_self _ _)
        simp only [List.head?_cons]
        intro h
        exact hc.2.1 (by injection h)
  | list xs hmem ih =>
    intro f hf
    rw [show depthElem (.vlist xs) = 1 + depthList xs from rfl] at hf
    obtain ⟨f', rfl⟩ : ∃ f', f = f' + 1 := ⟨f - 1, by omega⟩
    have hstatic : ∀ w ∈ xs, renderElem w ≠ [] ∧
        isWs ((renderElem w).headD 'a') = false ∧
        isWs ((renderElem w).getLastD 'a') = false ∧
        accAll (renderElem w) 0 = some 0 :=
      fun w hw => safe_static w (hmem w hw)
    rw [show renderElem (.vlist xs) = braceL :: renderList xs ++ [braceR] from rfl]
    have htrim : trimChars (braceL :: renderList xs ++ [braceR]) =
        braceL :: renderList xs ++ [braceR] := by
      apply trimChars_eq_self
      · show isWs braceL = false
        decide
      · rw [show braceL :: renderList xs ++ [braceR] =
          (braceL :: renderList xs) ++ [braceR] from rfl,
          getLastD_append_right _ _ (by simp) 'a']
        decide
    have hcond : (braceL :: renderList xs ++ [braceR]).head? = some braceL ∧
        (braceL :: renderList xs ++ [braceR]).getLast? = some braceR ∧
        2 ≤ (braceL :: renderList xs ++ [braceR]).length := by
      refine ⟨rfl, ?_, by simp⟩
      rw [show braceL :: renderList xs ++ [braceR] =
        (braceL :: renderList xs) ++ [braceR] from rfl, List.getLast?_concat]
    have hinner : ((braceL :: renderList xs ++ [braceR]).drop 1).dropLast =
        renderList xs := by
      rw [show (braceL :: renderList xs ++ [braceR]).drop 1 =
        renderList xs ++ [braceR] from rfl]
      rw [List.dropLast_concat]
    have hparse : parseArrF (f' + 1) (renderList xs) = some (stringifyList xs) := by
      cases hxs : xs with
      | nil => rfl
      | cons x xs' =>
        rw [← hxs]
        have hxs_ne : xs ≠ [] := by rw [hxs]; simp
        have hrl := renderList_facts xs hxs_ne
          (fun w hw => ⟨(hstatic w hw).1, (hstatic w hw).2.1, (hstatic w hw).2.2.1⟩)
        have htrim2 : trimChars (renderList xs) = renderList xs :=
          trimChars_eq_self hrl.2.1 hrl.2.2
        rw [parseArrF, htrim2]
        rw [if_neg (by simpa using hrl.1)]
        have hsplit : splitTop (renderList xs) 0 = some (xs.map renderElem) := by
          rw [renderList_eq_joinC]
          apply splitTop_joinC
          · simpa using hxs_ne
          · intro t ht
            rcases List.mem_map.mp ht with ⟨w, hw, rfl⟩
            exact (hstatic w hw).2.2.2
        rw [hsplit]
        apply mapM_parse
        intro w hw
        exact ih w hw f' (by
          have h1 := depthElem_le_depthList xs w hw
          omega)
    rw [parseTokWith, htrim, if_pos hcond, hinner, hparse]
    rfl

/-!  ## Coercion matches the rendering  -/

theorem coerceMatchList_of_elems : ∀ ys : List PgVal,
    (∀ v ∈ ys, coerceMatch (stringifyElem v) v = true) →
    coerceMatchList (stringifyList ys) ys = true := by
  intro ys
  induction ys with
  | nil => intro _; rfl
  | cons x xs ih =>
    intro hall
    rw [show stringifyList (x :: xs) = stringifyElem x :: stringifyList xs from rfl]
    simp only [coerceMatchList, Bool.and_eq_true]
    exact ⟨hall x (List.mem_cons_self _ _),
      ih (fun v hv => hall v (List.mem_cons_of_mem x hv))⟩

theorem coerce_render : ∀ v, SafeElem v → coerceMatch (stringifyElem v) v = true := by
  intro v hv
  induction hv with
  | int n =>
    rw [show stringifyElem (.vint n) = .vstr (String.mk (intToChars n)) from rfl]
    simp [coerceMatch, pyIntOfStr_intToChars]
  | float m e =>
    rw [show stringifyElem (.vfloat m e) = .vstr (String.mk (floatToChars m e)) from rfl]
    have htrim : trimChars (floatToChars m e) = floatToChars m e :=
      trimChars_no_ws (fun c hc => numChar_not_ws (floatToChars_numChar m e c hc))
    have hparse : pyFloatOfStr (String.mk (floatToChars m e)) =
        some (if e = 0 then PgVal.vfloat (m * 10) 1 else PgVal.vfloat m e) := by
      rw [pyFloatOfStr, show (String.mk (floatToChars m e)).toList =
        floatToChars m e from rfl, htrim, readFloatAll_floatToChars]
    by_cases he : e = 0
    · subst he
      rw [if_pos rfl] at hparse
      simp only [coerceMatch, hparse]
      try simp
      try ring
    · rw [if_neg he] at hparse
      simp only [coerceMatch, hparse]
      simp
  | text s hs =>
    rw [show stringifyElem (.vstr s) = .vstr s from rfl]
    simp [coerceMatch]
  | list xs hmem ih =>
    rw [show stringifyElem (.vlist xs) = .vlist (stringifyList xs) from rfl]
    rw [show coerceMatch (.vlist (stringifyList xs)) (.vlist xs) =
      coerceMatchList (stringifyList xs) xs from rfl]
    exact coerceMatchList_of_elems xs ih

theorem coerce_render_list (xs : List PgVal) (h : ∀ v ∈ xs, SafeElem v) :
    coerceMatchList (stringifyList xs) xs = true :=
  coerceMatchList_of_elems xs (fun v hv => coerce_render v (h v hv))

/-!  ## Fuel bound  -/

theorem renderElem_len_le : ∀ (xs : List PgVal) (w : PgVal), w ∈ xs →
    (renderElem w).length ≤ (renderList xs).length := by
  intro xs
  match xs with
  | [] => intro w hw; simp at hw
  | [x] =>
    intro w hw
    rcases List.mem_singleton.mp hw with rfl
    rfl
  | x :: y :: xs' =>
    intro w hw
    rw [show renderList (x :: y :: xs') =
      renderElem x ++ ',' :: renderList (y :: xs') from rfl]
    rcases List.mem_cons.mp hw with rfl | hw'
    · simp
    · have h2 := renderElem_len_le (y :: xs') w hw'
      simp only [List.length_append, List.length_cons]
      omega

theorem depthElem_le_renderElem : ∀ v, SafeElem v →
    depthElem v ≤ (renderElem v).length := by
  intro v hv
  induction hv with
  | int n => rw [show depthElem (.vint n) = 0 from rfl]; omega
  | float m e => rw [show depthElem (.vfloat m e) = 0 from rfl]; omega
  | text s hs => rw [show depthElem (.vstr s) = 0 from rfl]; omega
  | list xs hmem ih =>
    rw [show depthElem (.vlist xs) = 1 + depthList xs from rfl,
      show renderElem (.vlist xs) = braceL :: renderList xs ++ [braceR] from rfl]
    simp only [List.length_cons, List.length_append, List.length_singleton]
    have hbound : depthList xs ≤ (renderList xs).length + 1 := by
      clear hmem
      induction xs with
      | nil => rw [show depthList ([] : List PgVal) = 0 from rfl]; omega
      | cons x xs' ihx =>
        rw [show depthList (x :: xs') = max (depthElem x) (depthList xs') from rfl]
        have h1 : depthElem x ≤ (renderElem x).length :=
          ih x (List.mem_cons_self _ _)
        have h2 : (renderElem x).length ≤ (renderList (x :: xs')).length :=
          renderElem_len_le (x :: xs') x (List.mem_cons_self _ _)
        have h3 : depthList xs' ≤ (renderList xs').length + 1 :=
          ihx (fun v hv => ih v (List.mem_cons_of_mem x hv))
        have h4 : (renderList xs').length ≤ (renderList (x :: xs')).length := by
          cases xs' with
          | nil => exact Nat.zero_le _
          | cons y ys =>
            rw [show renderList (x :: y :: ys) =
              renderElem x ++ ',' :: renderList (y :: ys) from rfl]
            simp only [List.length_append, List.length_cons]
            omega
        omega
    omega

theorem parseArr_render (xs : List PgVal) (h : ∀ v ∈ xs, SafeElem v) :
    ∀ f : Nat, depthList xs + 1 ≤ f →
    parseArrF f (renderList xs) = some (stringifyList xs) := by
  intro f hf
  obtain ⟨f', rfl⟩ : ∃ f', f = f' + 1 := ⟨f - 1, by omega⟩
  have hstatic : ∀ w ∈ xs, renderElem w ≠ [] ∧
      isWs ((renderElem w).headD 'a') = false ∧
      isWs ((renderElem w).getLastD 'a') = false ∧
      accAll (renderElem w) 0 = some 0 :=
    fun w hw => safe_static w (h w hw)
  cases hxs : xs with
  | nil => rfl
  | cons x xs' =>
    rw [← hxs]
    have hxs_ne : xs ≠ [] := by rw [hxs]; simp
    have hrl := renderList_facts xs hxs_ne
      (fun w hw => ⟨(hstatic w hw).1, (hstatic w hw).2.1, (hstatic w hw).2.2.1⟩)
    have htrim2 : trimChars (renderList xs) = renderList xs :=
      trimChars_eq_self hrl.2.1 hrl.2.2
    rw [parseArrF, htrim2]
    rw [if_neg (by simpa using hrl.1)]
    have hsplit : splitTop (renderList xs) 0 = some (xs.map renderElem) := by
      rw [renderList_eq_joinC]
      apply splitTop_joinC
      · simpa using hxs_ne
      · intro t ht
        rcases List.mem_map.mp ht with ⟨w, hw, rfl⟩
        exact (hstatic w hw).2.2.2
    rw [hsplit]
    apply mapM_parse
    intro w hw
    exact parse_render w (h w hw) f' (by
      have h1 := depthElem_le_depthList xs w hw
      omega)

theorem renderList_len_mono (x : PgVal) (xs : List PgVal) :
    (renderList xs).length ≤ (renderList (x :: xs)).length := by
  cases xs with
  | nil => exact Nat.zero_le _
  | cons y ys =>
    rw [show renderList (x :: y :: ys) =
      renderElem x ++ ',' :: renderList (y :: ys) from rfl]
    simp only [List.length_append, List.length_cons]
    omega

theorem depthList_le_renderList : ∀ xs : List PgVal, (∀ v ∈ xs, SafeElem v) →
    depthList xs ≤ (renderList xs).length := by
  intro xs
  induction xs with
  | nil => intro _; exact Nat.zero_le _
  | cons x xs' ih =>
    intro h
    rw [show depthList (x :: xs') = max (depthElem x) (depthList xs') from rfl]
    have h1 : depthElem x ≤ (renderElem x).length :=
      depthElem_le_renderElem x (h x (List.mem_cons_self _ _))
    have h2 : (renderElem x).length ≤ (renderList (x :: xs')).length :=
      renderElem_len_le (x :: xs') x (List.mem_cons_self _ _)
    have h3 : depthList xs' ≤ (renderList xs').length :=
      ih (fun v hv => h v (List.mem_cons_of_mem x hv))
    have h4 := renderList_len_mono x xs'
    omega

theorem parse_array_render (xs : List PgVal) (h : ∀ v ∈ xs, SafeElem v) :
    parse_array (edit_string_for_array xs) = some (stringifyList xs) := by
  rw [parse_array, show (edit_string_for_array xs).toList = renderList xs from rfl]
  apply parseArr_render xs h
  have h1 := depthList_le_renderList xs h
  omega

/-!  ## Claim C1  -/

/-- C1, counterexample: the round trip fails as stated. For the sequence
`["a,b"]`, whose single leaf is a supported scalar (text), serialization
renders `a,b` without quoting, and parsing splits it at the comma into
two elements, which is not equal (element-wise, after coercion) to the
original one-element sequence. -/
theorem c1_round_trip_counterexample :
    ArrayFormField.prepare_value (.vlist [.vstr "a,b"]) = some (.vstr "a,b") ∧
    ArrayFormField.to_python (.vstr "a,b") =
      Except.ok (.vlist [.vstr "a", .vstr "b"]) ∧
    coerceMatchList [.vstr "a", .vstr "b"] [.vstr "a,b"] = false :=
  ⟨rfl, rfl, rfl⟩

/-- C1, amended: for every sequence `v` whose leaves are integers,
floats, or parse-safe text (nonempty, free of commas and braces, and
without leading or trailing whitespace), parsing the serialized form of
`v` (`ArrayFormField.to_python` applied to
`ArrayFormField.prepare_value` of `v`) yields a value equal element-wise,
after coercion, to `v`. -/
theorem c1_round_trip_safe (xs : List PgVal) (h : ∀ v ∈ xs, SafeElem v) :
    ∃ p ws, ArrayFormField.prepare_value (.vlist xs) = some p ∧
      ArrayFormField.to_python p = Except.ok (.vlist ws) ∧
      coerceMatchList ws xs = true := by
  refine ⟨.vstr (edit_string_for_array xs), stringifyList xs, rfl, ?_,
    coerce_render_list xs h⟩
  simp only [ArrayFormField.to_python, parse_array_render xs h]

/-- C1 witness: the amended round trip at a concrete mixed sequence with
an integer, a float, a text leaf and a nested list. -/
theorem c1_round_trip_safe_witness :
    ∃ p ws, ArrayFormField.prepare_value
        (.vlist [.vint 12, .vfloat (-15) 1, .vstr "ab", .vlist [.vint 3]]) =
          some p ∧
      ArrayFormField.to_python p = Except.ok (.vlist ws) ∧
      coerceMatchList ws [.vint 12, .vfloat (-15) 1, .vstr "ab",
        .vlist [.vint 3]] = true :=
  c1_round_trip_safe _ (by
    intro v hv
    simp only [List.mem_cons, List.not_mem_nil, or_false] at hv
    rcases hv with rfl | rfl | rfl | rfl
    · exact SafeElem.int 12
    · exact SafeElem.float (-15) 1
    · exact SafeElem.text "ab" (by decide)
    · exact SafeElem.list [.vint 3] (by
        intro w hw
        simp only [List.mem_cons, List.not_mem_nil, or_false] at hw
        subst hw
        exact SafeElem.int 3))

/-!  ## Claim C2  -/

/-- C2: for every declared base type name, the coercion selected at field
construction (with no explicit `type_cast` keyword) is: integer parse
when the name before any parenthesis is `int`, `smallint` or `bigint`;
text identity when it is `text` or `varchar`; float parse when it is
`double precision`; and the identity for every other name. -/
theorem c2_typecast_selection (dbtype : String) :
    ArrayField.initCast Option.none dbtype =
      (if typeKey dbtype = "int" ∨ typeKey dbtype = "smallint" ∨
          typeKey dbtype = "bigint" then TypeCast.toInt
       else if typeKey dbtype = "text" ∨ typeKey dbtype = "varchar" then
         TypeCast.toStr
       else if typeKey dbtype = "double precision" then TypeCast.toFloat
       else TypeCast.ident) := by
  show (match TYPES.lookup (typeKey dbtype) with
    | some tc => tc
    | Option.none => TypeCast.ident) = _
  generalize typeKey dbtype = k
  simp only [TYPES, List.lookup]
  cases hb1 : k == "int" <;> cases hb2 : k == "smallint" <;>
    cases hb3 : k == "bigint" <;> cases hb4 : k == "text" <;>
    cases hb5 : k == "double precision" <;> cases hb6 : k == "varchar" <;>
    simp_all [beq_iff_eq, beq_eq_false_iff_ne]

/-!  ## Claim C3  -/

theorem castTypeList_eq_mapM : ∀ (tc : TypeCast) (xs : List PgVal),
    castTypeList tc xs = xs.mapM (_cast_to_type tc) := by
  intro tc xs
  induction xs with
  | nil => rfl
  | cons x xs ih =>
    rw [show castTypeList tc (x :: xs) =
      (match _cast_to_type tc x with
       | some y =>
         match castTypeList tc xs with
         | some ys => some (y :: ys)
         | Option.none => Option.none
       | Option.none => Option.none) from rfl]
    rw [List.mapM_cons, ← ih]
    cases h1 : _cast_to_type tc x <;> cases h2 : castTypeList tc xs <;> rfl

/-- C3: coercion applies the selected scalar conversion element-wise
(`_cast_to_type` on a list is the monadic map of itself over the
elements, which recurses into nested sequences); in particular coercing
`["1","2","3"]` with the `int` cast gives `[1,2,3]`, `["1.5","2.5"]`
with the `double precision` cast gives `[1.5, 2.5]` (the decimals
`15/10^1` and `25/10^1`), and `["a","b"]` with the `text` cast gives
`["a","b"]`. -/
theorem c3_coercion_elementwise :
    (∀ (tc : TypeCast) (xs : List PgVal),
      _cast_to_type tc (.vlist xs) =
        (xs.mapM (_cast_to_type tc)).map PgVal.vlist) ∧
    _cast_to_type (selectTypeCast "int")
        (.vlist [.vstr "1", .vstr "2", .vstr "3"]) =
      some (.vlist [.vint 1, .vint 2, .vint 3]) ∧
    _cast_to_type (selectTypeCast "double precision")
        (.vlist [.vstr "1.5", .vstr "2.5"]) =
      some (.vlist [.vfloat 15 1, .vfloat 25 1]) ∧
    _cast_to_type (selectTypeCast "text") (.vlist [.vstr "a", .vstr "b"]) =
      some (.vlist [.vstr "a", .vstr "b"]) := by
  refine ⟨?_, rfl, rfl, rfl⟩
  intro tc xs
  rw [show _cast_to_type tc (.vlist xs) =
    (castTypeList tc xs).map PgVal.vlist from rfl, castTypeList_eq_mapM]

/-!  ## Claim C4  -/

theorem castUniList_id (xs : List PgVal)
    (h : ∀ x ∈ xs, _cast_to_unicode false x = x) : castUniList false xs = xs := by
  induction xs with
  | nil => rfl
  | cons x xs ih =>
    rw [show castUniList false (x :: xs) =
      _cast_to_unicode false x :: castUniList false xs from rfl,
      h x (List.mem_cons_self _ _),
      ih (fun y hy => h y (List.mem_cons_of_mem x hy))]

theorem tupleFreeList_mem {xs : List PgVal} (h : tupleFreeList xs = true)
    {x : PgVal} (hx : x ∈ xs) : tupleFree x = true := by
  induction xs with
  | nil => simp at hx
  | cons y ys ih =>
    rw [show tupleFreeList (y :: ys) = (tupleFree y && tupleFreeList ys) from rfl,
      Bool.and_eq_true] at h
    rcases List.mem_cons.mp hx with rfl | hx'
    · exact h.1
    · exact ih h.2 hx'

theorem pgval_sizeOf_pos (v : PgVal) : 0 < sizeOf v := by
  cases v <;> simp

theorem cast_unicode_id : ∀ (n : Nat) (v : PgVal), sizeOf v ≤ n →
    tupleFree v = true → _cast_to_unicode false v = v := by
  intro n
  induction n with
  | zero =>
    intro v hv _
    have := pgval_sizeOf_pos v
    omega
  | succ n ihn =>
    intro v hsz ht
    cases v with
    | vlist xs =>
      rw [show _cast_to_unicode false (.vlist xs) =
        .vlist (castUniList false xs) from rfl]
      congr 1
      apply castUniList_id
      intro x hx
      apply ihn x ?_ ?_
      · have h1 := List.sizeOf_lt_of_mem hx
        have h2 : sizeOf (PgVal.vlist xs) = 1 + sizeOf xs := by simp
        omega
      · rw [show tupleFree (.vlist xs) = tupleFreeList xs from rfl] at ht
        exact tupleFreeList_mem ht hx
    | vtuple xs =>
      rw [show tupleFree (.vtuple xs) = false from rfl] at ht
      exact absurd ht (by simp)
    | vstr s => rfl
    | vint k => rfl
    | vfloat m e => rfl
    | vbool b => rfl
    | vnone => rfl
    | vdict kvs => rfl

/-- C4, counterexample: the model field's parse is not a no-op on every
structured non-string sequence — a tuple comes back as a list, which is
a different value. -/
theorem c4_passthrough_counterexample :
    ArrayField.to_python (.vtuple [.vint 1]) = .vlist [.vint 1] ∧
    PgVal.vlist [.vint 1] ≠ PgVal.vtuple [.vint 1] :=
  ⟨rfl, fun h => PgVal.noConfusion h⟩

/-- C4, amended: the form field's parse returns every non-string value
unchanged; the model field's parse returns a non-string value unchanged
provided it contains no tuples at list positions (tuples are converted
to lists). -/
theorem c4_passthrough (v : PgVal) :
    (v.isStrB = false → ArrayFormField.to_python v = .ok v) ∧
    (v.isStrB = false → tupleFree v = true → ArrayField.to_python v = v) := by
  constructor
  · intro h
    cases v <;> first | rfl | simp [PgVal.isStrB] at h
  · intro h ht
    have hid := cast_unicode_id (sizeOf v) v le_rfl ht
    cases v <;> first | exact hid | simp [PgVal.isStrB] at h
  
/-- C4 witness: both parses leave the tuple-free list `[1]` unchanged. -/
theorem c4_passthrough_witness :
    ArrayFormField.to_python (.vlist [.vint 1]) = .ok (.vlist [.vint 1]) ∧
    ArrayField.to_python (.vlist [.vint 1]) = .vlist [.vint 1] :=
  ⟨(c4_passthrough (.vlist [.vint 1])).1 rfl,
    (c4_passthrough (.vlist [.vint 1])).2 rfl rfl⟩

/-!  ## Claim C5  -/

/-- C5: for every malformed textual input — one the array parser rejects,
such as the unbalanced `\x7b1,2,` — the form field's parse fails and is
translated into the single fixed user-facing validation message; it
never silently returns a value. -/
theorem c5_malformed :
    (∀ s : String, parse_array s = Option.none →
      ArrayFormField.to_python (.vstr s) =
        .error (.validation "Please provide a comma-separated list of values.")) ∧
    parse_array "\x7b1,2," = Option.none := by
  refine ⟨?_, rfl⟩
  intro s h
  simp [ArrayFormField.to_python, h]

/-- C5 witness: the fixed validation message on the concrete unbalanced
input `\x7b1,2,`. -/
theorem c5_malformed_witness :
    ArrayFormField.to_python (.vstr "\x7b1,2,") =
      .error (.validation "Please provide a comma-separated list of values.") :=
  c5_malformed.1 "\x7b1,2," rfl

/-!  ## Claim C6  -/

/-- C6, counterexample: the model field's parse of the empty string
returns the empty string itself — a string, not an empty sequence and
not `None`. -/
theorem c6_empty_counterexample :
    ArrayField.to_python (.vstr "") = .vstr "" ∧
    (∀ xs : List PgVal, PgVal.vstr "" ≠ PgVal.vlist xs) ∧
    PgVal.vstr "" ≠ PgVal.vnone :=
  ⟨rfl, fun _ h => PgVal.noConfusion h, fun h => PgVal.noConfusion h⟩

/-- C6, amended: the model field's parse of the empty string returns the
empty string unchanged (an empty, falsy value, but a string rather than
an empty sequence), parse of `None` returns `None`, and neither raises
(the parse is a total function). -/
theorem c6_empty_amended :
    ArrayField.to_python (.vstr "") = .vstr "" ∧
    ArrayField.to_python .vnone = .vnone ∧
    pyFalsy (.vstr "") = true :=
  ⟨rfl, rfl, rfl⟩

/-!  ## Claim C7  -/

/-- C7, counterexample: the deduplicated, sorted parse of "3,1,2,1" is
the list of text tokens `["1","2","3"]`, not the integer list `[1,2,3]`
(standard parsing leaves scalar tokens as text, and no coercion is
applied by the set-variant form field). -/
theorem c7_dedup_counterexample :
    SetFormField.to_python (.vstr "3,1,2,1") =
      .ok (.vlist [.vstr "1", .vstr "2", .vstr "3"]) ∧
    PgVal.vlist [.vstr "1", .vstr "2", .vstr "3"] ≠
      PgVal.vlist [.vint 1, .vint 2, .vint 3] := by
  refine ⟨rfl, fun h => ?_⟩
  simp only [PgVal.vlist.injEq, List.cons.injEq] at h
  exact PgVal.noConfusion h.1

/-- C7, amended: for every parseable input whose parsed elements are all
text tokens (which is what the standard parse produces on flat input),
the deduplicating variant returns the standard parse result with
duplicates removed, in ascending lexicographic order: the result is the
sorted deduplication of the parsed tokens, it is sorted, duplicate-free,
and has exactly the parsed tokens as members. For "3,1,2,1" the result
is `["1","2","3"]` — equal to `[1,2,3]` only after integer coercion. -/
theorem c7_dedup_sorted (s : String) (xs : List PgVal) (ss : List String)
    (hp : parse_array s = some xs) (hs : allStrings xs = some ss) :
    SetFormField.to_python (.vstr s) =
      .ok (.vlist ((dedupSortStr ss).map PgVal.vstr)) ∧
    List.Sorted (fun a b => strLeB a b = true) (dedupSortStr ss) ∧
    (dedupSortStr ss).Nodup ∧ (∀ a, a ∈ dedupSortStr ss ↔ a ∈ ss) := by
  refine ⟨?_, ?_, ?_, ?_⟩
  · simp only [SetFormField.to_python, ArrayFormField.to_python, hp, hs]
  · exact List.sorted_insertionSort _ _
  · exact ((List.perm_insertionSort _ _).nodup_iff).mpr (List.nodup_dedup ss)
  · intro a
    rw [dedupSortStr, (List.perm_insertionSort _ _).mem_iff, List.mem_dedup]

/-- C7 witness: the amended dedup/sort behaviour on the concrete input
"3,1,2,1". -/
theorem c7_dedup_sorted_witness :
    SetFormField.to_python (.vstr "3,1,2,1") =
      .ok (.vlist ((dedupSortStr ["3", "1", "2", "1"]).map PgVal.vstr)) ∧
    List.Sorted (fun a b => strLeB a b = true)
      (dedupSortStr ["3", "1", "2", "1"]) ∧
    (dedupSortStr ["3", "1", "2", "1"]).Nodup ∧
    (∀ a, a ∈ dedupSortStr ["3", "1", "2", "1"] ↔ a ∈ ["3", "1", "2", "1"]) :=
  c7_dedup_sorted "3,1,2,1" [.vstr "3", .vstr "1", .vstr "2", .vstr "1"]
    ["3", "1", "2", "1"] rfl rfl

/-!  ## Claim C8  -/

/-- C8: type coercion before persistence is skipped — the value comes
back verbatim — whenever the value is falsy (`None`, empty, zero) or is
already a string; the element-wise coercion is applied exactly to the
remaining nonempty, non-string sequence values. -/
theorem c8_prep_skip (tc : TypeCast) (prepared : Bool) (v : PgVal) :
    (pyFalsy v = true ∨ v.isStrB = true →
      ArrayField.get_db_prep_value tc prepared v = some v) ∧
    (∀ xs, v = .vlist xs → xs ≠ [] →
      ArrayField.get_db_prep_value tc prepared v = _cast_to_type tc v) := by
  have hprep : (if prepared then v else ArrayField.get_prep_value v) = v := by
    cases prepared <;> rfl
  constructor
  · intro h
    rw [ArrayField.get_db_prep_value]
    simp only [hprep]
    rw [if_pos (Bool.or_eq_true _ _ ▸ h)]
  · rintro xs rfl hne
    rw [ArrayField.get_db_prep_value]
    simp only [hprep]
    rw [if_neg (by
      simp only [Bool.or_eq_true]
      rintro (hf | hstr)
      · rw [show pyFalsy (PgVal.vlist xs) = xs.isEmpty from rfl] at hf
        exact hne (List.isEmpty_iff.mp hf)
      · exact absurd hstr (by rw [show (PgVal.vlist xs).isStrB = false from rfl]; simp))]

/-- C8 witness: `None` is returned verbatim, and a nonempty list goes
through the element-wise coercion. -/
theorem c8_prep_skip_witness :
    ArrayField.get_db_prep_value .toInt false .vnone = some .vnone ∧
    ArrayField.get_db_prep_value .toInt false (.vlist [.vstr "7"]) =
      _cast_to_type .toInt (.vlist [.vstr "7"]) :=
  ⟨(c8_prep_skip .toInt false .vnone).1 (Or.inl rfl),
    (c8_prep_skip .toInt false (.vlist [.vstr "7"])).2 [.vstr "7"] rfl
      (by simp)⟩

/-!  ## Claim C9  -/

/-- C9: the model field's parse is total and never raises: a string that
is valid JSON comes back as the decoded JSON value with contained
strings cast to text (`_cast_to_unicode`), and any other string comes
back as that string itself — concretely, the JSON text "[1, 2]" decodes
to the list `[1, 2]`, while the non-JSON "1,2,3" is returned as the
string "1,2,3", not as a parsed sequence and not as an error. -/
theorem c9_to_python_total :
    (∀ s : String,
      (∃ j, json_loads s = some j ∧
        ArrayField.to_python (.vstr s) = _cast_to_unicode false j) ∨
      (json_loads s = Option.none ∧
        ArrayField.to_python (.vstr s) = .vstr s)) ∧
    ArrayField.to_python (.vstr "[1, 2]") = .vlist [.vint 1, .vint 2] ∧
    ArrayField.to_python (.vstr "1,2,3") = .vstr "1,2,3" := by
  refine ⟨?_, rfl, rfl⟩
  intro s
  cases hj : json_loads s with
  | some j =>
    exact Or.inl ⟨j, rfl, by
      rw [ArrayField.to_python, show _unserialize (.vstr s) =
        (match json_loads s with
         | some j => _cast_to_unicode false j
         | Option.none => _cast_to_unicode false (.vstr s)) from rfl, hj]⟩
  | none =>
    refine Or.inr ⟨rfl, ?_⟩
    rw [ArrayField.to_python, show _unserialize (.vstr s) =
      (match json_loads s with
       | some j => _cast_to_unicode false j
       | Option.none => _cast_to_unicode false (.vstr s)) from rfl, hj]
    rfl

/-!  ## Claim C10  -/

theorem castUniList_eq_map (force : Bool) (xs : List PgVal) :
    castUniList force xs = xs.map (_cast_to_unicode force) := by
  induction xs with
  | nil => rfl
  | cons x xs ih =>
    rw [show castUniList force (x :: xs) =
      _cast_to_unicode force x :: castUniList force xs from rfl, ih, List.map_cons]

theorem castTypeList_length_order : ∀ (tc : TypeCast) (xs ys : List PgVal),
    castTypeList tc xs = some ys →
    ys.length = xs.length ∧ ∀ i (h1 : i < xs.length) (h2 : i < ys.length),
      _cast_to_type tc (xs.get ⟨i, h1⟩) = some (ys.get ⟨i, h2⟩) := by
  intro tc xs
  induction xs with
  | nil =>
    intro ys h
    rw [show castTypeList tc [] = some [] from rfl] at h
    obtain rfl : ([] : List PgVal) = ys := by simpa using h
    exact ⟨rfl, fun i h1 _ => absurd h1 (by simp)⟩
  | cons x xs ih =>
    intro ys h
    rw [show castTypeList tc (x :: xs) =
      (match _cast_to_type tc x with
       | some y =>
         match castTypeList tc xs with
         | some ys => some (y :: ys)
         | Option.none => Option.none
       | Option.none => Option.none) from rfl] at h
    cases h1 : _cast_to_type tc x with
    | none => rw [h1] at h; exact absurd h (by simp)
    | some y =>
      rw [h1] at h
      cases h2 : castTypeList tc xs with
      | none => rw [h2] at h; exact absurd h (by simp)
      | some ys' =>
        rw [h2] at h
        obtain rfl : y :: ys' = ys := by simpa using h
        obtain ⟨hlen, hpt⟩ := ih ys' h2
        refine ⟨by simpa using hlen, ?_⟩
        intro i hi1 hi2
        cases i with
        | zero => simpa using h1
        | succ i' =>
          simp only [List.get_cons_succ]
          exact hpt i' (by simpa using hi1) (by simpa using hi2)

/-- C10: for every list or tuple input, the unicode-cast helper returns a
built-in list whose elements are the casts of the input's elements in
order (so tuples become lists and length is preserved), and whenever the
type-coercion helper succeeds on a list or tuple it returns a built-in
list of the same length whose `i`-th element is the coercion of the
input's `i`-th element. -/
theorem c10_shape :
    (∀ (force : Bool) (xs : List PgVal),
      _cast_to_unicode force (.vlist xs) =
          .vlist (xs.map (_cast_to_unicode force)) ∧
        _cast_to_unicode force (.vtuple xs) =
          .vlist (xs.map (_cast_to_unicode force))) ∧
    (∀ (tc : TypeCast) (xs : List PgVal) (r : PgVal),
      _cast_to_type tc (.vlist xs) = some r ∨
        _cast_to_type tc (.vtuple xs) = some r →
      ∃ ys, r = .vlist ys ∧ ys.length = xs.length ∧
        ∀ i (h1 : i < xs.length) (h2 : i < ys.length),
          _cast_to_type tc (xs.get ⟨i, h1⟩) = some (ys.get ⟨i, h2⟩)) := by
  constructor
  · intro force xs
    constructor
    · rw [show _cast_to_unicode force (.vlist xs) =
        .vlist (castUniList force xs) from rfl, castUniList_eq_map]
    · rw [show _cast_to_unicode force (.vtuple xs) =
        .vlist (castUniList force xs) from rfl, castUniList_eq_map]
  · intro tc xs r h
    have hsome : (castTypeList tc xs).map PgVal.vlist = some r := by
      rcases h with h | h
      · rw [show _cast_to_type tc (.vlist xs) =
          (castTypeList tc xs).map PgVal.vlist from rfl] at h
        exact h
      · rw [show _cast_to_type tc (.vtuple xs) =
          (castTypeList tc xs).map PgVal.vlist from rfl] at h
        exact h
    rcases Option.map_eq_some'.mp hsome with ⟨ys, hys, rfl⟩
    obtain ⟨hlen, hpt⟩ := castTypeList_length_order tc xs ys hys
    exact ⟨ys, rfl, hlen, hpt⟩

/-- C10 witness: the unicode cast turns the tuple `(1,)` into the list
`[1]`, and the int coercion of the list `["1"]` succeeds with a
one-element list whose element is the coercion of the input element. -/
theorem c10_shape_witness :
    _cast_to_unicode false (.vtuple [.vint 1]) =
      .vlist ([PgVal.vint 1].map (_cast_to_unicode false)) ∧
    ∃ ys, PgVal.vlist [.vint 1] = .vlist ys ∧
      ys.length = [PgVal.vstr "1"].length ∧
      ∀ i (h1 : i < [PgVal.vstr "1"].length) (h2 : i < ys.length),
        _cast_to_type .toInt ([PgVal.vstr "1"].get ⟨i, h1⟩) =
          some (ys.get ⟨i, h2⟩) :=
  ⟨(c10_shape.1 false [.vint 1]).2,
    c10_shape.2 .toInt [.vstr "1"] (.vlist [.vint 1]) (Or.inl rfl)⟩

end DjormPgarray
